import Mathlib

/-!
# Register configuration of the FIR / frequency-division / modulation block

A shallow embedding of `Modulation_division_FPGA/config_fir_mod.cpp` (and of the
register access helpers it shares with `General_project/samples.c`).

* `argv` is a list of strings, `argv[0]` included.
* A run of `main` is the list of its observable events (mappings, register
  accesses, console lines) together with how the process ended.
* `int` variables are integers; every value they take on the paths below is far
  inside the 32-bit range.
* `float` is IEEE-754 binary32 with round-to-nearest-even, each operation rounded
  once (the arithmetic of the ARM target of the program).
-/

namespace ConfigFirMod

/-! ## Constants -/

/-- `#define ONE 8192` -/
def ONE : Int := 8192

def INT_MAX : Int := 2147483647

def INT_MIN : Int := -2147483648

/-- `int BASE_PROC = 0x40300000` -/
def BASE_PROC : Nat := 0x40300000

/-- `int BASE_AWG = 0x40200000` -/
def BASE_AWG : Nat := 0x40200000

/-- The table of filter presets, `int fir_coef_table[][6]`. -/
def fir_coef_table : List (List Int) :=
  [[21, -25, -80, 32, 320, 486],
   [93, 93, 93, 93, 93, 93],
   [-2, 26, 38, -60, -252, 511],
   [-7, -18, 58, 49, -339, 511],
   [67, -52, 286, 236, 218, 511],
   [-81, -22, -42, -210, 123, 511],
   [118, 32, 62, 303, -175, 511],
   [9, -66, -21, 180, 12, 511],
   [9, -101, -13, 98, 4, 511],
   [-345, 291, 45, 10, 300, 511],
   [-60, -23, 67, -122, 168, 511],
   [-105, -27, -29, -31, -32, 511]]

/-! ## The C library function `atoi` -/

/-- `isspace` in the C locale: space, and `\t \n \v \f \r`. -/
def isspace (c : Char) : Bool := c.toNat == 32 || (9 ≤ c.toNat && c.toNat ≤ 13)

/-- `isdigit`: the characters `0` to `9`. -/
def isdigit (c : Char) : Bool := 48 ≤ c.toNat && c.toNat ≤ 57

/-- Value of the longest run of decimal digits at the head of the string,
accumulated on `acc`. -/
def digitsValue : List Char → Nat → Nat
  | [], acc => acc
  | c :: cs, acc => if isdigit c then digitsValue cs (acc * 10 + (c.toNat - 48)) else acc

/-- `atoi`: skip white space, read an optional sign and the decimal digits that
follow; text that does not start with a number reads as 0.  A magnitude that does
not fit `int` is undefined in C; it is read here as the 32-bit target's library
does, saturated at `INT_MAX` / `INT_MIN`. -/
def atoi (s : String) : Int :=
  match s.toList.dropWhile isspace with
  | [] => 0
  | c :: cs =>
    if c.toNat = 45 then max INT_MIN (-(digitsValue cs 0 : Int))
    else if c.toNat = 43 then min INT_MAX (digitsValue cs 0 : Int)
    else min INT_MAX (digitsValue (c :: cs) 0 : Int)

/-! ## Single-precision arithmetic -/

/-- A binary32 value: the finite number `m * 2 ^ e`, an infinity, or a NaN.
Zero is `fin 0 e`; the sign of a zero is not tracked (a negative zero needs a
negative operand, and the amplitudes that reach the arithmetic are not negative). -/
inductive F32 where
  | fin (m : Int) (e : Int)
  | inf (neg : Bool)
  | nan
  deriving DecidableEq, Repr

/-- The integer nearest to `n / d`, ties to the even one (`0 < d`). -/
def rne (n d : Nat) : Nat :=
  if 2 * (n % d) < d then n / d
  else if d < 2 * (n % d) then n / d + 1
  else n / d + (n / d) % 2

/-- The number of times `n` can be halved before it drops below 2, counted with
at most `fuel` halvings. -/
def halvings : Nat → Nat → Nat
  | 0, _ => 0
  | fuel + 1, n => if 2 ≤ n then halvings fuel (n / 2) + 1 else 0

/-- The integer logarithm `⌊log₂ n⌋` of `n > 0` (and 0 for `n = 0`); `n` halvings
are always enough. -/
def floorLog2 (n : Nat) : Nat := halvings n n

/-- The binary exponent `⌊log₂ (n / d)⌋` of a positive rational. -/
def ilog2 (n d : Nat) : Int :=
  if d ≤ n then (floorLog2 (n / d) : Int) else -((floorLog2 ((d - 1) / n) + 1 : Nat) : Int)

/-- The binary32 value nearest to `± n / d` (`0 < d`): 24 significant bits, the
last place never below `2 ^ (-149)` (gradual underflow), ties to even, and
overflow to infinity above the largest finite value `(2 ^ 24 - 1) * 2 ^ 104`. -/
def F32.round (neg : Bool) (n d : Nat) : F32 :=
  if n = 0 then F32.fin 0 0
  else
    let e : Int := max (ilog2 n d - 23) (-149)
    let m : Nat := if 0 ≤ e then rne n (d * 2 ^ e.toNat) else rne (n * 2 ^ (-e).toNat) d
    if 104 < e ∨ (e = 104 ∧ 2 ^ 24 ≤ m) then F32.inf neg
    else F32.fin (if neg then -(m : Int) else (m : Int)) e

/-- The conversion `(float) n` of an `int`. -/
def F32.ofInt (n : Int) : F32 := F32.round (decide (n < 0)) n.natAbs 1

/-- Single-precision division `x / y`. -/
def F32.div : F32 → F32 → F32
  | F32.fin m1 e1, F32.fin m2 e2 =>
    if m2 = 0 then (if m1 = 0 then F32.nan else F32.inf (decide (m1 < 0)))
    else F32.round (decide (m1 < 0) != decide (m2 < 0))
      (m1.natAbs * 2 ^ (e1 - e2).toNat) (m2.natAbs * 2 ^ (e2 - e1).toNat)
  | F32.fin _ _, F32.inf _ => F32.fin 0 0
  | F32.inf s, F32.fin m2 _ => F32.inf (s != decide (m2 < 0))
  | _, _ => F32.nan

/-- Single-precision product `x * y`. -/
def F32.mul : F32 → F32 → F32
  | F32.fin m1 e1, F32.fin m2 e2 =>
    F32.round (decide (m1 < 0) != decide (m2 < 0))
      (m1.natAbs * m2.natAbs * 2 ^ (e1 + e2).toNat) (2 ^ (-(e1 + e2)).toNat)
  | F32.fin m _, F32.inf s => if m = 0 then F32.nan else F32.inf (s != decide (m < 0))
  | F32.inf s, F32.fin m _ => if m = 0 then F32.nan else F32.inf (s != decide (m < 0))
  | F32.inf s, F32.inf t => F32.inf (s != t)
  | _, _ => F32.nan

/-- Single-precision sum `x + y`. -/
def F32.add : F32 → F32 → F32
  | F32.fin m1 e1, F32.fin m2 e2 =>
    let e := min e1 e2
    let s : Int := m1 * 2 ^ (e1 - e).toNat + m2 * 2 ^ (e2 - e).toNat
    F32.round (decide (s < 0)) (s.natAbs * 2 ^ e.toNat) (2 ^ (-e).toNat)
  | F32.fin _ _, F32.inf s => F32.inf s
  | F32.inf s, F32.fin _ _ => F32.inf s
  | F32.inf s, F32.inf t => if s = t then F32.inf s else F32.nan
  | _, _ => F32.nan

/-- The statement `int v = round(x)`: `round` goes to the nearest integer,
halfway cases away from zero, and the result is converted to `int`.  The
conversion of an infinity, a NaN or a value outside `int` is undefined in C;
`undef` is what the platform delivers for it. -/
def F32.roundToInt (undef : F32 → Int) (x : F32) : Int :=
  match x with
  | F32.fin m e =>
    let a : Nat :=
      if 0 ≤ e then m.natAbs * 2 ^ e.toNat
      else (2 * m.natAbs + 2 ^ (-e).toNat) / 2 ^ ((-e).toNat + 1)
    let r : Int := if m < 0 then -(a : Int) else (a : Int)
    if INT_MIN ≤ r ∧ r ≤ INT_MAX then r else undef x
  | _ => undef x

/-! ## Register access -/

/-- The `int` that a 32-bit register word converts to (two's complement). -/
def toInt32 (raw : Nat) : Int :=
  if raw % 4294967296 < 2147483648 then (raw % 4294967296 : Nat)
  else ((raw % 4294967296 : Nat) : Int) - 4294967296

/-- `In32`: the register word read as `int`. -/
def In32 (raw : Nat) : Int := toInt32 raw

/-- `In16`, on the word `raw` found at `adr + offset`:
`r = *((uint32_t *)(adr+offset)); if (r > 32767) return r-65536; return r;` -/
def In16 (raw : Nat) : Int :=
  let r : Int := toInt32 raw
  if r > 32767 then r - 65536 else r

/-- The 32-bit word that `Out32` stores for the `int` argument `value`. -/
def storedWord (value : Int) : Nat := (value % 4294967296).toNat

/-! ## Events of a run -/

/-- What a run does that can be seen from outside, in program order. -/
inductive Event where
  /-- `perror(what)` -/
  | perror (what : String)
  /-- `mmap` of the page at physical address `base`; `ok` tells whether it succeeded -/
  | mmap (base : Nat) (ok : Bool)
  /-- `munmap` of the mapping of the page at `base` -/
  | munmap (base : Nat)
  /-- `In32(adr_proc, offset)` -/
  | In32 (offset : Nat)
  /-- `Out32(adr_proc, offset, value)` -/
  | Out32 (offset : Nat) (value : Int)
  /-- a line of text on `std::cout` -/
  | cout (text : String)
  /-- a line `text << value` on `std::cout` -/
  | coutInt (text : String) (value : Int)
  /-- the line `"FIR[" << i << "] = " << value` -/
  | coutFir (i : Nat) (value : Int)
  deriving DecidableEq, Repr

/-- How the process ended: `return code` from `main`, or a memory fault. -/
inductive Status where
  | exit (code : Int)
  | fault
  deriving DecidableEq, Repr

/-- A run: its events and its end. -/
structure Run where
  events : List Event
  status : Status
  deriving DecidableEq, Repr

/-- What the program meets outside itself. -/
structure Env where
  /-- `open("/dev/mem", O_RDWR)` succeeds -/
  openOk : Bool
  /-- the `mmap` of the page at `BASE_PROC` succeeds -/
  procMapOk : Bool
  /-- the `mmap` of the page at `BASE_AWG` succeeds -/
  awgMapOk : Bool
  /-- the word read from register `0x50` -/
  idReg : Nat
  /-- the platform's result for a float-to-int conversion that C leaves undefined -/
  undefConv : F32 → Int

/-! ## The local variables of `main` -/

/-- The variables of `main` that the command line can set, and the constant ones
that are written to registers. -/
structure Vars where
  dig_pin_p_dir : Int
  dig_pin_n_dir : Int
  dig_pin_p_out : Int
  dig_pin_n_out : Int
  leds : Int
  fir_en : Int
  fir_change_coef : Int
  fir_coef : List Int
  enable_freq_div : Int
  avg_nFirst : Int
  freq_div : Int
  mod_en : Int
  mod_car_ch : Int
  A_carrier : Int
  A_message : Int
  deriving DecidableEq, Repr

/-- The initial values (lines 99-117 of `config_fir_mod.cpp`):
`A_carrier = round(1.0 * ONE)` and `A_message` likewise are 8192. -/
def initVars : Vars where
  dig_pin_p_dir := 0
  dig_pin_n_dir := 0
  dig_pin_p_out := 0
  dig_pin_n_out := 0
  leds := 0
  fir_en := 0
  fir_change_coef := 1
  fir_coef := [0, 0, 0, 0, 0, 0]
  enable_freq_div := 0
  avg_nFirst := 1
  freq_div := 0
  mod_en := 0
  mod_car_ch := 1
  A_carrier := 8192
  A_message := 8192

/-! ## Argument parsing -/

/-- `fir_coef_table[fir][j]` -/
def tableAt (fir : Int) (j : Nat) : Int := (fir_coef_table.getD fir.toNat []).getD j 0

/-- The body of the parsing loop for `argv[i] = arg`; `next` is `argv[i + 1]`,
or `none` when `i + 1 < argc` fails.  The result is the updated variables (the
branch then skips the value with `i++`), or the message printed before
`return 1`. -/
def handleArg (arg : String) (next : Option String) (v : Vars) : Except String Vars :=
  if arg = "-fir" then
    match next with
    | some val =>
      let fir := atoi val
      if fir ≥ 0 ∧ fir ≤ 11 then
        Except.ok { v with fir_coef := (List.range 6).map (fun j => tableAt fir j) }
      else Except.error "Invalid FIR filter number!"
    | none => Except.error "Missing FIR filter number!"
  else if arg = "-fir_en" then
    match next with
    | some val =>
      let fir_en := atoi val
      if fir_en ≠ 0 ∧ fir_en ≠ 1 then Except.error "Invalid FIR enable value!"
      else Except.ok { v with fir_en := fir_en }
    | none => Except.error "Missing FIR enable value!"
  else if arg = "-freq_div" then
    match next with
    | some val =>
      let freq_div := atoi val
      if freq_div < 0 ∨ freq_div > 3 then Except.error "Invalid frequency division value!"
      else Except.ok { v with enable_freq_div := 1, freq_div := freq_div }
    | none => Except.error "Missing frequency division value!"
  else if arg = "-avg" then
    match next with
    | some val =>
      let avg_nFirst := atoi val
      if avg_nFirst ≠ 0 ∧ avg_nFirst ≠ 1 then Except.error "Invalid averaging/first value!"
      else Except.ok { v with avg_nFirst := avg_nFirst }
    | none => Except.error "Missing averaging/first value!"
  else if arg = "-mod" then
    match next with
    | some val =>
      let mod_en := atoi val
      if mod_en ≠ 0 ∧ mod_en ≠ 1 then Except.error "Invalid modulation enable value!"
      else Except.ok { v with mod_en := mod_en }
    | none => Except.error "Missing modulation enable value!"
  else if arg = "-mod_ch" then
    match next with
    | some val =>
      let mod_car_ch := atoi val
      if mod_car_ch ≠ 1 ∧ mod_car_ch ≠ 2 then
        Except.error "Invalid modulation carrier channel value!"
      else Except.ok { v with mod_car_ch := mod_car_ch }
    | none => Except.error "Missing modulation carrier channel value!"
  else if arg = "-A_carrier" then
    match next with
    | some val =>
      let A_carrier := atoi val
      if A_carrier < 0 ∨ A_carrier > ONE then Except.error "Invalid carrier amplitude value!"
      else Except.ok { v with A_carrier := A_carrier }
    | none => Except.error "Missing carrier amplitude value!"
  else if arg = "-A_message" then
    match next with
    | some val =>
      let A_message := atoi val
      if A_message < 0 ∨ A_message > ONE then Except.error "Invalid message amplitude value!"
      else Except.ok { v with A_message := A_message }
    | none => Except.error "Missing message amplitude value!"
  else Except.error "Invalid parameter!"

/-- The loop `for (int i = 1; i < argc; i++)` over the arguments `argv[i ..]`
that are still to be read. -/
def parseArgs : List String → Vars → Except String Vars
  | [], v => Except.ok v
  | [arg], v => handleArg arg none v
  | arg :: val :: rest, v =>
    match handleArg arg (some val) v with
    | Except.ok v1 => parseArgs rest v1
    | Except.error msg => Except.error msg

/-! ## Derived register values -/

/-- `mod_fact = round((float)A_message/(float)A_carrier * ONE)` -/
def mod_fact (undef : F32 → Int) (A_message A_carrier : Int) : Int :=
  F32.roundToInt undef
    (F32.mul (F32.div (F32.ofInt A_message) (F32.ofInt A_carrier)) (F32.ofInt ONE))

/-- The output scale: `ONE`, unless `A_carrier + A_message > ONE`, when it is
`round((float)A_carrier/((float)A_message + (float)A_carrier) * ONE)`. -/
def mod_out_scale (undef : F32 → Int) (A_message A_carrier : Int) : Int :=
  if A_carrier + A_message > ONE then
    F32.roundToInt undef
      (F32.mul (F32.div (F32.ofInt A_carrier) (F32.add (F32.ofInt A_message) (F32.ofInt A_carrier)))
        (F32.ofInt ONE))
  else ONE

/-! ## `main` -/

/-- The part of `main` after the parsing loop and before the first register
access (lines 251-264): the console lines it prints. -/
def reportLines (undef : F32 → Int) (v : Vars) : List Event :=
  (if v.A_message > v.A_carrier then
      [Event.cout "WARNING Message amplitude is bigger than carrier amplitude!"]
    else [])
  ++ [Event.coutInt "Modulation factor = " (mod_fact undef v.A_message v.A_carrier)]
  ++ (if v.A_carrier + v.A_message > ONE then
      [Event.coutInt "Modulation output scaling factor = "
        (mod_out_scale undef v.A_message v.A_carrier)]
    else [])

/-- The register accesses and console lines of lines 268-294, on a mapped page. -/
def configure (env : Env) (v : Vars) : List Event :=
  [Event.In32 0x50, Event.coutInt "ID = 0x" (In32 env.idReg),
   Event.Out32 0x10 v.dig_pin_p_dir,
   Event.Out32 0x14 v.dig_pin_n_dir,
   Event.Out32 0x18 v.dig_pin_p_out,
   Event.Out32 0x1C v.dig_pin_n_out,
   Event.Out32 0x30 v.leds,
   Event.Out32 0x50 v.fir_en]
  ++ (List.range 6).map (fun i => Event.Out32 0x58 (v.fir_coef.getD i 0))
  ++ (List.range 6).map (fun i => Event.coutFir i (v.fir_coef.getD i 0))
  ++ [Event.Out32 0x54 v.fir_change_coef,
      Event.Out32 0x60 v.enable_freq_div,
      Event.Out32 0x64 v.avg_nFirst,
      Event.Out32 0x68 v.freq_div,
      Event.Out32 0x70 v.mod_en,
      Event.Out32 0x74 (v.mod_car_ch - 1),
      Event.Out32 0x78 (mod_fact env.undefConv v.A_message v.A_carrier),
      Event.Out32 0x7C (mod_out_scale env.undefConv v.A_message v.A_carrier),
      Event.cout "End of program!"]

/-- The program.  `open` failing ends it with `return 1`.  The two `mmap`
results are not checked; if the page at `BASE_PROC` is not mapped, the first
register access (`In32(adr_proc, 0x50)`) goes through `MAP_FAILED` and the
process ends there with a memory fault. -/
def main (env : Env) (argv : List String) : Run :=
  if env.openOk = false then ⟨[Event.perror "open"], Status.exit 1⟩
  else
    let maps := [Event.mmap BASE_PROC env.procMapOk, Event.mmap BASE_AWG env.awgMapOk]
    match parseArgs argv.tail initVars with
    | Except.error msg => ⟨maps ++ [Event.cout msg], Status.exit 1⟩
    | Except.ok v =>
      if env.procMapOk = false then
        ⟨maps ++ reportLines env.undefConv v ++ [Event.In32 0x50], Status.fault⟩
      else
        ⟨maps ++ reportLines env.undefConv v ++ configure env v
          ++ [Event.munmap BASE_PROC, Event.munmap BASE_AWG], Status.exit 0⟩

/-! ## Observations on a run -/

/-- The register write that an event is, if it is one. -/
def asWrite : Event → Option (Nat × Int)
  | Event.Out32 offset value => some (offset, value)
  | _ => none

/-- The register writes of a run: offset and value of each `Out32`, in order. -/
def writes (r : Run) : List (Nat × Int) := r.events.filterMap asWrite

/-- The values written to the register at `offset`, in order. -/
def writtenTo (offset : Nat) (r : Run) : List Int :=
  ((writes r).filter (fun w => w.1 == offset)).map (fun w => w.2)

/-- The device opens and the page of the registers maps, as the program expects. -/
def deviceReady (env : Env) : Prop :=
  env.openOk = true ∧ env.procMapOk = true

/-! ## The command line as the specification describes it -/

/-- The flags of the command line. -/
def knownFlags : List String :=
  ["-fir", "-fir_en", "-freq_div", "-avg", "-mod", "-mod_ch", "-A_carrier", "-A_message"]

/-- The documented range of the value of each flag. -/
def allowed (flag : String) (x : Int) : Bool :=
  if flag = "-fir" then decide (0 ≤ x ∧ x ≤ 11)
  else if flag = "-fir_en" then decide (x = 0 ∨ x = 1)
  else if flag = "-freq_div" then decide (0 ≤ x ∧ x ≤ 3)
  else if flag = "-avg" then decide (x = 0 ∨ x = 1)
  else if flag = "-mod" then decide (x = 0 ∨ x = 1)
  else if flag = "-mod_ch" then decide (x = 1 ∨ x = 2)
  else if flag = "-A_carrier" then decide (0 ≤ x ∧ x ≤ 8192)
  else if flag = "-A_message" then decide (0 ≤ x ∧ x ≤ 8192)
  else false

/-- Some flag that the parser reaches is not a known flag, or is the last
argument, or has a value that reads outside its range. -/
def rejects : List String → Bool
  | [] => false
  | [_] => true
  | flag :: val :: rest =>
    decide (flag ∉ knownFlags) || !allowed flag (atoi val) || rejects rest

/-- The reading of the value of the last occurrence of `flag` among the
flag/value pairs of an argument list, if it occurs. -/
def lastValue (flag : String) : List String → Option Int
  | [] => none
  | [_] => none
  | f :: val :: rest =>
    match lastValue flag rest with
    | some x => some x
    | none => if f = flag then some (atoi val) else none

/-- The row that `-fir` copies into `fir_coef`: `fir_coef_table[fir][0 .. 5]`. -/
def firRow (fir : Int) : List Int := (List.range 6).map (fun j => tableAt fir j)

/-- The variables after the parsing loop, told from the argument list: each
variable holds the reading of the last value given for its flag, and keeps the
value it has in `v` when the flag is not given. -/
def settings (v : Vars) (args : List String) : Vars :=
  { v with
    fir_en := (lastValue "-fir_en" args).getD v.fir_en
    fir_coef := ((lastValue "-fir" args).map firRow).getD v.fir_coef
    enable_freq_div := if (lastValue "-freq_div" args).isSome then 1 else v.enable_freq_div
    avg_nFirst := (lastValue "-avg" args).getD v.avg_nFirst
    freq_div := (lastValue "-freq_div" args).getD v.freq_div
    mod_en := (lastValue "-mod" args).getD v.mod_en
    mod_car_ch := (lastValue "-mod_ch" args).getD v.mod_car_ch
    A_carrier := (lastValue "-A_carrier" args).getD v.A_carrier
    A_message := (lastValue "-A_message" args).getD v.A_message }

/-- The register writes of lines 272-291, for the variables `v`. -/
def writePlan (undef : F32 → Int) (v : Vars) : List (Nat × Int) :=
  [(0x10, v.dig_pin_p_dir), (0x14, v.dig_pin_n_dir), (0x18, v.dig_pin_p_out),
   (0x1C, v.dig_pin_n_out), (0x30, v.leds), (0x50, v.fir_en),
   (0x58, v.fir_coef.getD 0 0), (0x58, v.fir_coef.getD 1 0), (0x58, v.fir_coef.getD 2 0),
   (0x58, v.fir_coef.getD 3 0), (0x58, v.fir_coef.getD 4 0), (0x58, v.fir_coef.getD 5 0),
   (0x54, v.fir_change_coef), (0x60, v.enable_freq_div), (0x64, v.avg_nFirst),
   (0x68, v.freq_div), (0x70, v.mod_en), (0x74, v.mod_car_ch - 1),
   (0x78, mod_fact undef v.A_message v.A_carrier),
   (0x7C, mod_out_scale undef v.A_message v.A_carrier)]

/-- The writes of a run to the coefficient register `0x58` and to the commit
register `0x54`, in order. -/
def firWrites (r : Run) : List (Nat × Int) :=
  (writes r).filter (fun w => w.1 == 0x58 || w.1 == 0x54)

/-- A device that opens and maps, whose register `0x50` reads 0 and whose
undefined conversions deliver 0. -/
def readyEnv : Env where
  openOk := true
  procMapOk := true
  awgMapOk := true
  idReg := 0
  undefConv := fun _ => 0

/-! ## Further observations that the claims speak of -/

/-- The signed two's-complement reading of the low 16 bits of a register word. -/
def signed16 (raw : Nat) : Int :=
  if raw % 65536 > 32767 then ((raw % 65536 : Nat) : Int) - 65536 else ((raw % 65536 : Nat) : Int)

/-- The arguments at the flag positions of an argument list: the first, the
third, and so on. -/
def flagsOf : List String → List String
  | [] => []
  | [f] => [f]
  | f :: _ :: rest => f :: flagsOf rest

/-- The number of `mmap` calls of a run that succeeded. -/
def mapsDone (r : Run) : Nat :=
  (r.events.filter (fun ev => match ev with
    | Event.mmap _ ok => ok
    | _ => false)).length

/-- The number of `munmap` calls of a run. -/
def unmapsDone (r : Run) : Nat :=
  (r.events.filter (fun ev => match ev with
    | Event.munmap _ => true
    | _ => false)).length

/-- The writes that come after the first write to `offset`. -/
def writesAfter (offset : Nat) (ws : List (Nat × Int)) : List (Nat × Int) :=
  (ws.dropWhile (fun w => w.1 != offset)).tail

/-- The writes of a run to the registers `0x50`, `0x58` and `0x54`, in order. -/
def firEnableAndCoefWrites (r : Run) : List (Nat × Int) :=
  (writes r).filter (fun w => w.1 == 0x50 || w.1 == 0x58 || w.1 == 0x54)

/-! ## The value of a single-precision number -/

/-- `x` is the finite, non-negative binary32 number of value `q`. -/
def F32.Holds (x : F32) (q : ℚ) : Prop :=
  ∃ (m : ℕ) (e : ℤ), x = F32.fin (m : ℤ) e ∧ m ≤ 2 ^ 24 ∧ (m : ℚ) * 2 ^ e = q

/-- `q` has at most 24 significant bits. -/
def Fits24 (q : ℚ) : Prop := ∃ (M : ℕ) (E : ℤ), M ≤ 2 ^ 24 ∧ q = (M : ℚ) * 2 ^ E

/-- The integer nearest to `num / den` for `den > 0`, halves upward. -/
def nearestInt (num den : Int) : Int := (2 * num + den) / (2 * den)

/-- The offsets of the `Out32` calls of lines 272-291, in program order. -/
def planOffsets : List Nat :=
  [0x10, 0x14, 0x18, 0x1C, 0x30, 0x50, 0x58, 0x58, 0x58, 0x58, 0x58, 0x58, 0x54,
   0x60, 0x64, 0x68, 0x70, 0x74, 0x78, 0x7C]

/-- The writes that come before the first write to `offset`. -/
def writesBefore (offset : Nat) (ws : List (Nat × Int)) : List (Nat × Int) :=
  ws.takeWhile (fun w => w.1 != offset)

/-- The console line of line 252. -/
def warningLine : Event :=
  Event.cout "WARNING Message amplitude is bigger than carrier amplitude!"

/-- A device that opens and maps, on which an undefined conversion delivers 12345. -/
def oddConvEnv : Env where
  openOk := true
  procMapOk := true
  awgMapOk := true
  idReg := 0
  undefConv := fun _ => 12345

/-- A binary32 value is a finite number. -/
def F32.isFinite : F32 → Bool
  | F32.fin _ _ => true
  | _ => false

/-- The argument list made of flag/value pairs. -/
def argsOf : List (String × String) → List String
  | [] => []
  | p :: ps => p.1 :: p.2 :: argsOf ps

/-! ## Lemmas on the parsing loop -/

theorem flag_cases (arg : String) :
    arg = "-fir" ∨ arg = "-fir_en" ∨ arg = "-freq_div" ∨ arg = "-avg" ∨ arg = "-mod"
      ∨ arg = "-mod_ch" ∨ arg = "-A_carrier" ∨ arg = "-A_message" ∨ arg ∉ knownFlags := by
  simp only [knownFlags, List.mem_cons, List.mem_singleton, List.not_mem_nil, or_false]
  tauto

theorem handleArg_fir (val : String) (v : Vars) :
    handleArg "-fir" (some val) v =
      if atoi val ≥ 0 ∧ atoi val ≤ 11 then
        Except.ok { v with fir_coef := (List.range 6).map (fun j => tableAt (atoi val) j) }
      else Except.error "Invalid FIR filter number!" := by
  simp [handleArg]

theorem handleArg_fir_en (val : String) (v : Vars) :
    handleArg "-fir_en" (some val) v =
      if atoi val ≠ 0 ∧ atoi val ≠ 1 then Except.error "Invalid FIR enable value!"
      else Except.ok { v with fir_en := atoi val } := by
  simp [handleArg]

theorem handleArg_freq_div (val : String) (v : Vars) :
    handleArg "-freq_div" (some val) v =
      if atoi val < 0 ∨ atoi val > 3 then Except.error "Invalid frequency division value!"
      else Except.ok { v with enable_freq_div := 1, freq_div := atoi val } := by
  simp [handleArg]

theorem handleArg_avg (val : String) (v : Vars) :
    handleArg "-avg" (some val) v =
      if atoi val ≠ 0 ∧ atoi val ≠ 1 then Except.error "Invalid averaging/first value!"
      else Except.ok { v with avg_nFirst := atoi val } := by
  simp [handleArg]

theorem handleArg_mod (val : String) (v : Vars) :
    handleArg "-mod" (some val) v =
      if atoi val ≠ 0 ∧ atoi val ≠ 1 then Except.error "Invalid modulation enable value!"
      else Except.ok { v with mod_en := atoi val } := by
  simp [handleArg]

theorem handleArg_mod_ch (val : String) (v : Vars) :
    handleArg "-mod_ch" (some val) v =
      if atoi val ≠ 1 ∧ atoi val ≠ 2 then
        Except.error "Invalid modulation carrier channel value!"
      else Except.ok { v with mod_car_ch := atoi val } := by
  simp [handleArg]

theorem handleArg_A_carrier (val : String) (v : Vars) :
    handleArg "-A_carrier" (some val) v =
      if atoi val < 0 ∨ atoi val > ONE then Except.error "Invalid carrier amplitude value!"
      else Except.ok { v with A_carrier := atoi val } := by
  simp [handleArg]

theorem handleArg_A_message (val : String) (v : Vars) :
    handleArg "-A_message" (some val) v =
      if atoi val < 0 ∨ atoi val > ONE then Except.error "Invalid message amplitude value!"
      else Except.ok { v with A_message := atoi val } := by
  simp [handleArg]

theorem handleArg_unknown (arg : String) (next : Option String) (v : Vars)
    (h : arg ∉ knownFlags) : handleArg arg next v = Except.error "Invalid parameter!" := by
  simp only [knownFlags, List.mem_cons, List.mem_singleton, List.not_mem_nil, or_false,
    not_or] at h
  obtain ⟨h1, h2, h3, h4, h5, h6, h7, h8⟩ := h
  simp [handleArg, h1, h2, h3, h4, h5, h6, h7, h8]

theorem handleArg_none (arg : String) (v : Vars) :
    ∃ msg, handleArg arg none v = Except.error msg := by
  rcases flag_cases arg with h | h | h | h | h | h | h | h | h
  all_goals first
    | exact ⟨_, handleArg_unknown arg none v h⟩
    | (subst h; exact ⟨_, rfl⟩)

/-- A flag with a value is taken exactly when the flag is known and the value
reads inside its range. -/
theorem handleArg_ok_iff (arg val : String) (v : Vars) :
    (∃ v1, handleArg arg (some val) v = Except.ok v1)
      ↔ (arg ∈ knownFlags ∧ allowed arg (atoi val) = true) := by
  rcases flag_cases arg with h | h | h | h | h | h | h | h | h
  case inr.inr.inr.inr.inr.inr.inr.inr =>
    simp [handleArg_unknown arg (some val) v h, h]
  all_goals
    subst h
    simp only [handleArg_fir, handleArg_fir_en, handleArg_freq_div, handleArg_avg, handleArg_mod,
      handleArg_mod_ch, handleArg_A_carrier, handleArg_A_message, ONE]
    simp only [knownFlags, allowed]
    split_ifs <;> simp_all <;> omega

theorem parseArgs_error_of_rejects (args : List String) (v : Vars)
    (h : rejects args = true) : ∃ msg, parseArgs args v = Except.error msg := by
  induction args, v using parseArgs.induct with
  | case1 v => simp [rejects] at h
  | case2 arg v => exact handleArg_none arg v
  | case3 arg val rest v v1 hv ih =>
    simp only [parseArgs, hv]
    apply ih
    have hok := (handleArg_ok_iff arg val v).1 ⟨v1, hv⟩
    simpa [rejects, hok.1, hok.2] using h
  | case4 arg val rest v msg hv =>
    exact ⟨msg, by simp only [parseArgs, hv]⟩

theorem parseArgs_ok_of_accepts (args : List String) (v : Vars)
    (h : rejects args = false) : ∃ v1, parseArgs args v = Except.ok v1 := by
  induction args, v using parseArgs.induct with
  | case1 v => exact ⟨v, rfl⟩
  | case2 arg v => simp [rejects] at h
  | case3 arg val rest v v1 hv ih =>
    simp only [parseArgs, hv]
    apply ih
    simp only [rejects, Bool.or_eq_false_iff] at h
    exact h.2
  | case4 arg val rest v msg hv =>
    exfalso
    simp only [rejects, Bool.or_eq_false_iff] at h
    have : ∃ v1, handleArg arg (some val) v = Except.ok v1 :=
      (handleArg_ok_iff arg val v).2 ⟨by simpa using h.1.1, by simpa using h.1.2⟩
    obtain ⟨v1, h1⟩ := this
    rw [hv] at h1
    cases h1

theorem lastValue_cons_ne (flag f val : String) (rest : List String) (h : f ≠ flag) :
    lastValue flag (f :: val :: rest) = lastValue flag rest := by
  simp only [lastValue, if_neg h]
  cases lastValue flag rest <;> rfl

theorem lastValue_cons_self (flag val : String) (rest : List String) :
    lastValue flag (flag :: val :: rest) = some ((lastValue flag rest).getD (atoi val)) := by
  simp only [lastValue, if_true]
  cases lastValue flag rest <;> rfl

theorem lastValue_self_getD (flag val : String) (rest : List String) (d : Int) :
    (lastValue flag (flag :: val :: rest)).getD d = (lastValue flag rest).getD (atoi val) := by
  rw [lastValue_cons_self]; rfl

theorem lastValue_self_isSome (flag val : String) (rest : List String) :
    (lastValue flag (flag :: val :: rest)).isSome = true := by
  rw [lastValue_cons_self]; rfl

theorem lastValue_self_map_getD {α : Type} (f : Int → α) (flag val : String)
    (rest : List String) (d : α) :
    ((lastValue flag (flag :: val :: rest)).map f).getD d
      = ((lastValue flag rest).map f).getD (f (atoi val)) := by
  rw [lastValue_cons_self]
  cases lastValue flag rest <;> rfl

theorem settings_step (arg val : String) (rest : List String) (v v1 : Vars)
    (h : handleArg arg (some val) v = Except.ok v1) :
    settings v1 rest = settings v (arg :: val :: rest) := by
  rcases flag_cases arg with h0 | h0 | h0 | h0 | h0 | h0 | h0 | h0 | h0
  case inr.inr.inr.inr.inr.inr.inr.inr =>
    rw [handleArg_unknown arg (some val) v h0] at h
    cases h
  all_goals
    subst h0
    simp only [handleArg_fir, handleArg_fir_en, handleArg_freq_div, handleArg_avg, handleArg_mod,
      handleArg_mod_ch, handleArg_A_carrier, handleArg_A_message] at h
    split_ifs at h
    cases h
    simp [settings, lastValue_self_getD, lastValue_self_isSome, lastValue_self_map_getD,
      lastValue_cons_ne, firRow]

theorem parseArgs_eq_settings (args : List String) (v v2 : Vars)
    (h : parseArgs args v = Except.ok v2) : v2 = settings v args := by
  induction args, v using parseArgs.induct with
  | case1 v =>
    simp only [parseArgs] at h
    cases h
    rfl
  | case2 arg v =>
    obtain ⟨msg, hm⟩ := handleArg_none arg v
    simp only [parseArgs, hm] at h
    cases h
  | case3 arg val rest v v1 hv ih =>
    simp only [parseArgs, hv] at h
    rw [ih h]
    exact settings_step arg val rest v v1 hv
  | case4 arg val rest v msg hv =>
    simp only [parseArgs, hv] at h
    cases h

theorem parseArgs_accepts (args : List String) (v : Vars) (h : rejects args = false) :
    parseArgs args v = Except.ok (settings v args) := by
  obtain ⟨v1, h1⟩ := parseArgs_ok_of_accepts args v h
  rw [h1, parseArgs_eq_settings args v v1 h1]

theorem main_of_rejects (env : Env) (argv : List String) (h : rejects argv.tail = true) :
    (main env argv).status = Status.exit 1 ∧ writes (main env argv) = [] := by
  obtain ⟨msg, hm⟩ := parseArgs_error_of_rejects argv.tail initVars h
  unfold main
  by_cases ho : env.openOk = false
  · rw [if_pos ho]
    exact ⟨rfl, rfl⟩
  · rw [if_neg ho, hm]
    exact ⟨rfl, rfl⟩

theorem writes_reportLines (undef : F32 → Int) (v : Vars) :
    (reportLines undef v).filterMap asWrite = [] := by
  unfold reportLines
  split_ifs <;> rfl

theorem writes_configure (env : Env) (v : Vars) :
    (configure env v).filterMap asWrite = writePlan env.undefConv v := by
  simp [configure, writePlan, List.range, List.range.loop, asWrite]

theorem main_of_accepts (env : Env) (argv : List String) (hd : deviceReady env)
    (h : rejects argv.tail = false) :
    main env argv =
      ⟨[Event.mmap BASE_PROC true, Event.mmap BASE_AWG env.awgMapOk]
        ++ reportLines env.undefConv (settings initVars argv.tail)
        ++ configure env (settings initVars argv.tail)
        ++ [Event.munmap BASE_PROC, Event.munmap BASE_AWG], Status.exit 0⟩ := by
  obtain ⟨ho, hp⟩ := hd
  unfold main
  rw [if_neg (by simp [ho]), parseArgs_accepts _ _ h]
  simp only [hp]
  rfl

theorem writes_main_of_accepts (env : Env) (argv : List String) (hd : deviceReady env)
    (h : rejects argv.tail = false) :
    writes (main env argv) = writePlan env.undefConv (settings initVars argv.tail) := by
  rw [main_of_accepts env argv hd h]
  simp only [writes, List.filterMap_append, writes_reportLines, writes_configure]
  rfl

theorem lastValue_cons_cons (flag f val : String) (rest : List String) :
    lastValue flag (f :: val :: rest) =
      match lastValue flag rest with
      | some x => some x
      | none => if f = flag then some (atoi val) else none := rfl

theorem rejects_append (pre rest : List String) (h : rejects pre = false) :
    rejects (pre ++ rest) = rejects rest := by
  induction pre using rejects.induct with
  | case1 => rfl
  | case2 a => simp [rejects] at h
  | case3 flag val tl ih =>
    simp only [rejects, Bool.or_eq_false_iff] at h
    simp only [List.cons_append, rejects, h.1.1, h.1.2, Bool.false_or]
    exact ih h.2

theorem lastValue_append (flag : String) (pre rest : List String) (h : rejects pre = false) :
    lastValue flag (pre ++ rest) =
      match lastValue flag rest with
      | some x => some x
      | none => lastValue flag pre := by
  induction pre using rejects.induct with
  | case1 =>
    rw [List.nil_append]
    cases lastValue flag rest <;> rfl
  | case2 a => simp [rejects] at h
  | case3 f val tl ih =>
    simp only [rejects, Bool.or_eq_false_iff] at h
    rw [List.cons_append, List.cons_append, lastValue_cons_cons, ih h.2, lastValue_cons_cons]
    cases lastValue flag rest <;> rfl

theorem firRow_eq (f : Int) (h0 : 0 ≤ f) (h1 : f ≤ 11) :
    [(firRow f).getD 0 0, (firRow f).getD 1 0, (firRow f).getD 2 0, (firRow f).getD 3 0,
      (firRow f).getD 4 0, (firRow f).getD 5 0] = fir_coef_table.getD f.toNat [] := by
  obtain ⟨n, rfl⟩ := Int.eq_ofNat_of_zero_le h0
  have hn : n ≤ 11 := by omega
  interval_cases n <;> rfl

theorem firWrites_writePlan (undef : F32 → Int) (v : Vars) :
    (writePlan undef v).filter (fun w => w.1 == 0x58 || w.1 == 0x54)
      = [(0x58, v.fir_coef.getD 0 0), (0x58, v.fir_coef.getD 1 0), (0x58, v.fir_coef.getD 2 0),
         (0x58, v.fir_coef.getD 3 0), (0x58, v.fir_coef.getD 4 0), (0x58, v.fir_coef.getD 5 0),
         (0x54, v.fir_change_coef)] := by
  simp [writePlan, List.filter]

theorem allowed_of_lastValue (flag : String) (args : List String) (x : Int)
    (h : rejects args = false) (hx : lastValue flag args = some x) : allowed flag x = true := by
  induction args using rejects.induct with
  | case1 => cases hx
  | case2 a => cases hx
  | case3 f val tl ih =>
    simp only [rejects, Bool.or_eq_false_iff] at h
    rw [lastValue_cons_cons] at hx
    cases hl : lastValue flag tl with
    | some y =>
      rw [hl] at hx
      cases hx
      exact ih h.2 hl
    | none =>
      rw [hl] at hx
      simp only at hx
      split_ifs at hx with hf
      cases hx
      subst hf
      simpa using h.1.2

theorem lastValue_isSome_iff (flag : String) (args : List String) (h : rejects args = false) :
    (lastValue flag args).isSome = true ↔ flag ∈ flagsOf args := by
  induction args using rejects.induct with
  | case1 => simp [lastValue, flagsOf]
  | case2 a => simp [rejects] at h
  | case3 f val tl ih =>
    simp only [rejects, Bool.or_eq_false_iff] at h
    rw [lastValue_cons_cons, flagsOf, List.mem_cons, ← ih h.2]
    cases hl : lastValue flag tl with
    | some y => simp
    | none =>
      by_cases hf : f = flag
      · simp [hf]
      · have : ¬ flag = f := fun h => hf h.symm
        simp [hf, this]

theorem writtenTo_main_of_accepts (env : Env) (argv : List String) (hd : deviceReady env)
    (h : rejects argv.tail = false) (offset : Nat) :
    writtenTo offset (main env argv)
      = ((writePlan env.undefConv (settings initVars argv.tail)).filter
          (fun w => w.1 == offset)).map (fun w => w.2) := by
  rw [writtenTo, writes_main_of_accepts env argv hd h]

/-- No run writes anything unless the arguments are accepted and the device is ready. -/
theorem writes_main_cases (env : Env) (argv : List String) :
    writes (main env argv) = []
      ∨ (deviceReady env ∧ rejects argv.tail = false) := by
  by_cases ho : env.openOk = false
  · left
    unfold main
    rw [if_pos ho]
    rfl
  · cases hr : rejects argv.tail with
    | true => exact Or.inl (main_of_rejects env argv hr).2
    | false =>
      by_cases hp : env.procMapOk = false
      · left
        unfold main
        rw [if_neg ho, parseArgs_accepts _ _ hr]
        simp only [hp, if_true, writes, List.filterMap_append, writes_reportLines]
        rfl
      · right
        exact ⟨⟨by simpa using ho, by simpa using hp⟩, rfl⟩

/-! ## Lemmas on the register accesses and the write plan -/

theorem In16_eq (raw : Nat) (h : raw < 4294967296) :
    In16 raw =
      if raw < 2147483648 then (if raw > 32767 then (raw : Int) - 65536 else (raw : Int))
      else (raw : Int) - 4294967296 := by
  have h1 : raw % 4294967296 = raw := Nat.mod_eq_of_lt h
  simp only [In16, toInt32, h1]
  split_ifs <;> omega

theorem writePlan_at_0x74 (undef : F32 → Int) (v : Vars) :
    ((writePlan undef v).filter (fun w => w.1 == 0x74)).map (fun w => w.2)
      = [v.mod_car_ch - 1] := by
  simp [writePlan, List.filter]

theorem writePlan_at_0x60 (undef : F32 → Int) (v : Vars) :
    ((writePlan undef v).filter (fun w => w.1 == 0x60)).map (fun w => w.2)
      = [v.enable_freq_div] := by
  simp [writePlan, List.filter]

theorem writePlan_at_0x68 (undef : F32 → Int) (v : Vars) :
    ((writePlan undef v).filter (fun w => w.1 == 0x68)).map (fun w => w.2)
      = [v.freq_div] := by
  simp [writePlan, List.filter]

theorem mod_car_ch_settings (args : List String) (h : rejects args = false) :
    (settings initVars args).mod_car_ch = 1 ∨ (settings initVars args).mod_car_ch = 2 := by
  show (lastValue "-mod_ch" args).getD 1 = 1 ∨ (lastValue "-mod_ch" args).getD 1 = 2
  cases hl : lastValue "-mod_ch" args with
  | none => exact Or.inl rfl
  | some x =>
    have ha := allowed_of_lastValue "-mod_ch" args x h hl
    simp [allowed] at ha
    simpa using ha

/-! ## Lemmas on single-precision rounding -/

theorem halvings_spec (fuel n : Nat) (hn : 0 < n) (hf : n < 2 ^ fuel) :
    2 ^ halvings fuel n ≤ n ∧ n < 2 ^ (halvings fuel n + 1) := by
  induction fuel generalizing n with
  | zero => simp at hf; omega
  | succ fuel ih =>
    unfold halvings
    split_ifs with h2
    · have h3 : 0 < n / 2 := Nat.div_pos h2 (by decide)
      have h4 : n / 2 < 2 ^ fuel := by
        rw [Nat.div_lt_iff_lt_mul (by decide)]
        rw [pow_succ] at hf
        exact hf
      obtain ⟨ih1, ih2⟩ := ih (n / 2) h3 h4
      constructor
      · rw [pow_succ]
        have := Nat.div_mul_le_self n 2
        calc 2 ^ halvings fuel (n / 2) * 2 ≤ n / 2 * 2 := Nat.mul_le_mul_right 2 ih1
          _ ≤ n := this
      · rw [pow_succ]
        have := Nat.lt_mul_of_div_lt ih2 (by decide : 0 < 2)
        omega
    · constructor
      · simp; omega
      · simp; omega

theorem floorLog2_spec (n : Nat) (hn : 0 < n) :
    2 ^ floorLog2 n ≤ n ∧ n < 2 ^ (floorLog2 n + 1) :=
  halvings_spec n n hn (Nat.lt_two_pow n)

theorem two_zpow_pos (k : Int) : (0 : ℚ) < 2 ^ k := zpow_pos (by norm_num) k

/-- `2 ^ ilog2 n d ≤ n / d < 2 ^ (ilog2 n d + 1)`. -/
theorem ilog2_spec (n d : Nat) (hn : 0 < n) (hd : 0 < d) :
    (2 : ℚ) ^ ilog2 n d ≤ (n : ℚ) / d ∧ (n : ℚ) / d < 2 ^ (ilog2 n d + 1) := by
  have hdq : (0 : ℚ) < d := by exact_mod_cast hd
  have hnq : (0 : ℚ) < n := by exact_mod_cast hn
  unfold ilog2
  split_ifs with h
  · have hpos : 0 < n / d := Nat.div_pos h hd
    obtain ⟨h1, h2⟩ := floorLog2_spec (n / d) hpos
    rw [Nat.le_div_iff_mul_le hd] at h1
    rw [Nat.div_lt_iff_lt_mul hd] at h2
    constructor
    · rw [zpow_natCast, le_div_iff₀ hdq]
      exact_mod_cast h1
    · rw [show ((floorLog2 (n / d) : ℕ) : ℤ) + 1 = ((floorLog2 (n / d) + 1 : ℕ) : ℤ) by push_cast; rfl,
        zpow_natCast, div_lt_iff₀ hdq]
      exact_mod_cast h2
  · push_neg at h
    have hpos : 0 < (d - 1) / n := Nat.div_pos (by omega) hn
    obtain ⟨h1, h2⟩ := floorLog2_spec ((d - 1) / n) hpos
    rw [Nat.le_div_iff_mul_le hn] at h1
    rw [Nat.div_lt_iff_lt_mul hn] at h2
    set j := floorLog2 ((d - 1) / n) with hj
    -- h1 : 2^j * n ≤ d - 1,  h2 : d - 1 < 2^(j+1) * n
    have h1' : 2 ^ j * n + 1 ≤ d := by omega
    have h2' : d ≤ 2 ^ (j + 1) * n := by omega
    have h1q : (2 : ℚ) ^ j * n + 1 ≤ d := by exact_mod_cast h1'
    have h2q : (d : ℚ) ≤ 2 ^ (j + 1) * n := by exact_mod_cast h2'
    have hp : (0 : ℚ) < 2 ^ (j + 1) := by positivity
    have hp' : (0 : ℚ) < 2 ^ j := by positivity
    constructor
    · rw [zpow_neg, zpow_natCast, le_div_iff₀ hdq, inv_mul_le_iff₀ hp]
      exact h2q
    · rw [show -(((j + 1 : ℕ)) : ℤ) + 1 = -((j : ℕ) : ℤ) by push_cast; ring,
        zpow_neg, zpow_natCast, div_lt_iff₀ hdq, lt_inv_mul_iff₀ hp']
      linarith

theorem ilog2_unique (n d : Nat) (hn : 0 < n) (hd : 0 < d) (K : Int)
    (h1 : (2 : ℚ) ^ K ≤ (n : ℚ) / d) (h2 : (n : ℚ) / d < 2 ^ (K + 1)) : ilog2 n d = K := by
  obtain ⟨s1, s2⟩ := ilog2_spec n d hn hd
  have a1 : (2 : ℚ) ^ K < 2 ^ (ilog2 n d + 1) := lt_of_le_of_lt h1 s2
  have a2 : (2 : ℚ) ^ ilog2 n d < 2 ^ (K + 1) := lt_of_le_of_lt s1 h2
  rw [zpow_lt_zpow_iff_right₀ (by norm_num)] at a1 a2
  omega

theorem rne_spec (n d : Nat) (hd : 0 < d) : |((rne n d : ℕ) : ℚ) - (n : ℚ) / d| ≤ 1 / 2 := by
  have hdq : (0 : ℚ) < d := by exact_mod_cast hd
  have hdiv : (n : ℚ) = (d : ℚ) * ((n / d : ℕ) : ℚ) + ((n % d : ℕ) : ℚ) := by
    exact_mod_cast (Nat.div_add_mod n d).symm
  have hmod : n % d < d := Nat.mod_lt n hd
  have hmodq : ((n % d : ℕ) : ℚ) < d := by exact_mod_cast hmod
  have hmod0 : (0 : ℚ) ≤ ((n % d : ℕ) : ℚ) := by positivity
  have key : ((n / d : ℕ) : ℚ) + ((n % d : ℕ) : ℚ) / d = (n : ℚ) / d := by
    rw [eq_div_iff (ne_of_gt hdq), add_mul, div_mul_cancel₀ _ (ne_of_gt hdq)]
    linarith
  rw [← key]
  unfold rne
  split_ifs with h1 h2
  · have h1q : (2 : ℚ) * ((n % d : ℕ) : ℚ) < d := by exact_mod_cast h1
    have : ((n % d : ℕ) : ℚ) / d ≤ 1 / 2 := by
      rw [div_le_iff₀ hdq]; linarith
    have h0 : (0 : ℚ) ≤ ((n % d : ℕ) : ℚ) / d := by positivity
    rw [abs_le]; constructor <;> linarith
  · have h2q : (d : ℚ) < 2 * ((n % d : ℕ) : ℚ) := by exact_mod_cast h2
    have : (1 : ℚ) / 2 ≤ ((n % d : ℕ) : ℚ) / d := by
      rw [le_div_iff₀ hdq]; linarith
    have h3 : ((n % d : ℕ) : ℚ) / d ≤ 1 := by
      rw [div_le_iff₀ hdq]; linarith
    push_cast
    rw [abs_le]; constructor <;> linarith
  · have h3 : 2 * (n % d) = d := by omega
    have h3q : (2 : ℚ) * ((n % d : ℕ) : ℚ) = d := by exact_mod_cast h3
    have : ((n % d : ℕ) : ℚ) / d = 1 / 2 := by
      rw [div_eq_iff (ne_of_gt hdq)]; linarith
    rw [this]
    have h4 : (n / d) % 2 = 0 ∨ (n / d) % 2 = 1 := by omega
    rcases h4 with h4 | h4 <;> rw [h4] <;> push_cast <;> rw [abs_le] <;> constructor <;> linarith

theorem zpow_toNat_div (k : Int) : (2 : ℚ) ^ k.toNat / 2 ^ (-k).toNat = 2 ^ k := by
  rcases le_total 0 k with h | h
  · have h1 : (-k).toNat = 0 := by omega
    have h2 : ((k.toNat : ℕ) : ℤ) = k := Int.toNat_of_nonneg h
    rw [h1, pow_zero, div_one, ← zpow_natCast, h2]
  · have h1 : k.toNat = 0 := by omega
    have h2 : (((-k).toNat : ℕ) : ℤ) = -k := Int.toNat_of_nonneg (by omega)
    rw [h1, pow_zero, ← zpow_natCast, h2, zpow_neg, one_div, inv_inv]

/-- Rounding in the normal range: the significand is the integer nearest to the
ratio scaled by the last place. -/
theorem round_normal (n d : Nat) (hn : 0 < n) (hd : 0 < d)
    (hlo : -126 ≤ ilog2 n d) (hhi : ilog2 n d ≤ 126) :
    ∃ m : ℕ, F32.round false n d = F32.fin (m : ℤ) (ilog2 n d - 23)
      ∧ |(m : ℚ) - (n : ℚ) / d / 2 ^ (ilog2 n d - 23)| ≤ 1 / 2 := by
  have hdq : (0 : ℚ) < d := by exact_mod_cast hd
  have hmax : max (ilog2 n d - 23) (-149) = ilog2 n d - 23 := max_eq_left (by omega)
  unfold F32.round
  rw [if_neg (by omega)]
  simp only [hmax]
  rw [if_neg (by omega)]
  simp only [Bool.false_eq_true, if_false]
  split_ifs with he
  · refine ⟨_, rfl, ?_⟩
    have h := rne_spec n (d * 2 ^ (ilog2 n d - 23).toNat) (by positivity)
    have h2 : (((ilog2 n d - 23).toNat : ℕ) : ℤ) = ilog2 n d - 23 := Int.toNat_of_nonneg he
    have h3 : (2 : ℚ) ^ (ilog2 n d - 23) = 2 ^ (ilog2 n d - 23).toNat := by
      rw [← zpow_natCast, h2]
    rw [h3]
    push_cast at h
    rw [div_div]
    exact h
  · refine ⟨_, rfl, ?_⟩
    have h := rne_spec (n * 2 ^ (-(ilog2 n d - 23)).toNat) d hd
    have h2 : (((-(ilog2 n d - 23)).toNat : ℕ) : ℤ) = -(ilog2 n d - 23) :=
      Int.toNat_of_nonneg (by omega)
    have h3 : (2 : ℚ) ^ (ilog2 n d - 23) = (2 ^ (-(ilog2 n d - 23)).toNat)⁻¹ := by
      rw [← zpow_natCast, h2, zpow_neg, inv_inv]
    rw [h3]
    push_cast at h
    rw [div_inv_eq_mul, div_mul_eq_mul_div]
    exact h

theorem nat_eq_of_abs_sub_le_half (m K : ℕ) (h : |(m : ℚ) - (K : ℚ)| ≤ 1 / 2) : m = K := by
  rw [abs_le] at h
  have h1 : (K : ℚ) < (m : ℚ) + 1 := by linarith [h.1]
  have h2 : (m : ℚ) < (K : ℚ) + 1 := by linarith [h.2]
  have h1' : K < m + 1 := by exact_mod_cast h1
  have h2' : m < K + 1 := by exact_mod_cast h2
  omega

/-- Rounding a ratio in the normal range: the result is a finite number within
half a unit in the last place, hence within the relative error `2 ^ (-24)`, and it
is the ratio itself when that has at most 24 significant bits. -/
theorem round_ratio (n d : Nat) (hn : 0 < n) (hd : 0 < d) (q : ℚ) (hq : (n : ℚ) / d = q)
    (hlo : (2 : ℚ) ^ (-126 : ℤ) ≤ q) (hhi : q < (2 : ℚ) ^ (127 : ℤ)) :
    ∃ q', F32.Holds (F32.round false n d) q' ∧ |q' - q| ≤ q / 2 ^ 24 ∧ (Fits24 q → q' = q) := by
  obtain ⟨s1, s2⟩ := ilog2_spec n d hn hd
  rw [hq] at s1 s2
  have two1 : (1 : ℚ) < 2 := by norm_num
  have two0 : (2 : ℚ) ≠ 0 := by norm_num
  have hL1 : -126 ≤ ilog2 n d := by
    have := lt_of_le_of_lt hlo s2
    rw [zpow_lt_zpow_iff_right₀ two1] at this
    omega
  have hL2 : ilog2 n d ≤ 126 := by
    have := lt_of_le_of_lt s1 hhi
    rw [zpow_lt_zpow_iff_right₀ two1] at this
    omega
  obtain ⟨m, hm, herr⟩ := round_normal n d hn hd hL1 hL2
  rw [hq] at herr
  set L := ilog2 n d with hLdef
  set u : ℚ := 2 ^ (L - 23) with hu
  have hupos : 0 < u := two_zpow_pos _
  have huL : u * 2 ^ 23 = 2 ^ L := by
    rw [hu, zpow_sub₀ two0]
    have : (2 : ℚ) ^ (23 : ℤ) = 2 ^ 23 := by norm_cast
    rw [this]
    field_simp
  have huL1 : u * 2 ^ 24 = 2 ^ (L + 1) := by
    rw [zpow_add_one₀ two0, ← huL]; ring
  have hqu_lt : q / u < 2 ^ 24 := by
    rw [div_lt_iff₀ hupos]
    calc q < 2 ^ (L + 1) := s2
      _ = 2 ^ 24 * u := by rw [← huL1]; ring
  have hqu_ge : (2 : ℚ) ^ 23 ≤ q / u := by
    rw [le_div_iff₀ hupos]
    calc (2 : ℚ) ^ 23 * u = 2 ^ L := by rw [← huL]; ring
      _ ≤ q := s1
  rw [abs_le] at herr
  have hm24 : m ≤ 2 ^ 24 := by
    have : (m : ℚ) < ((2 ^ 24 + 1 : ℕ) : ℚ) := by push_cast; linarith [herr.2]
    have : m < 2 ^ 24 + 1 := by exact_mod_cast this
    omega
  refine ⟨(m : ℚ) * u, ⟨m, L - 23, hm, hm24, rfl⟩, ?_, ?_⟩
  · have e1 : (m : ℚ) * u - q = u * ((m : ℚ) - q / u) := by field_simp
    rw [e1, abs_mul, abs_of_pos hupos]
    have e2 : |(m : ℚ) - q / u| ≤ 1 / 2 := abs_le.2 herr
    have e3 : u * (1 / 2) ≤ q / 2 ^ 24 := by
      rw [le_div_iff₀ (by positivity)]
      have : u * (1 / 2) * 2 ^ 24 = 2 ^ L := by rw [← huL]; ring
      rw [this]; exact s1
    calc u * |(m : ℚ) - q / u| ≤ u * (1 / 2) := by
          apply mul_le_mul_of_nonneg_left e2 (le_of_lt hupos)
      _ ≤ q / 2 ^ 24 := e3
  · rintro ⟨M, E, hM, hME⟩
    have hK : ∃ K : ℕ, q / u = (K : ℚ) := by
      rcases le_or_lt (L - 23) E with hE | hE
      · refine ⟨M * 2 ^ (E - (L - 23)).toNat, ?_⟩
        have ht : (((E - (L - 23)).toNat : ℕ) : ℤ) = E - (L - 23) := Int.toNat_of_nonneg (by omega)
        have h2E : (2 : ℚ) ^ E = 2 ^ (E - (L - 23)) * u := by
          rw [hu, ← zpow_add₀ two0]
          congr 1
          ring
        push_cast
        rw [← zpow_natCast (2 : ℚ), ht, hME, h2E]
        field_simp
        ring
      · refine ⟨2 ^ 23, ?_⟩
        have hE' : E ≤ L - 24 := by omega
        have hMq : (M : ℚ) ≤ 2 ^ 24 := by exact_mod_cast hM
        have h1 : q ≤ 2 ^ L := by
          rw [hME]
          calc (M : ℚ) * 2 ^ E ≤ 2 ^ 24 * 2 ^ (L - 24) := by
                apply mul_le_mul hMq (zpow_le_zpow_right₀ (le_of_lt two1) hE')
                  (le_of_lt (two_zpow_pos _)) (by positivity)
            _ = 2 ^ L := by
                rw [zpow_sub₀ two0]
                have : (2 : ℚ) ^ (24 : ℤ) = 2 ^ 24 := by norm_cast
                rw [this]; field_simp
        have h2 : q = 2 ^ L := le_antisymm h1 s1
        push_cast
        rw [h2, ← huL]
        field_simp
        norm_num
    obtain ⟨K, hK⟩ := hK
    rw [hK] at herr
    have hmK : m = K := nat_eq_of_abs_sub_le_half m K (abs_le.2 herr)
    rw [hmK, ← hK]
    field_simp

theorem holds_zero : F32.Holds (F32.fin 0 0) 0 :=
  ⟨0, 0, rfl, by norm_num, by norm_num⟩

theorem ofInt_holds (n : Int) (h0 : 0 ≤ n) (h1 : n ≤ 2 ^ 24) : F32.Holds (F32.ofInt n) (n : ℚ) := by
  obtain ⟨k, rfl⟩ := Int.eq_ofNat_of_zero_le h0
  have hk : k ≤ 2 ^ 24 := by exact_mod_cast h1
  unfold F32.ofInt
  have hneg : decide ((k : ℤ) < 0) = false := by simp
  rw [hneg, Int.natAbs_ofNat]
  rcases Nat.eq_zero_or_pos k with hz | hpos
  · subst hz
    simpa [F32.round] using holds_zero
  · have hkq : (1 : ℚ) ≤ k := by exact_mod_cast hpos
    have hkq2 : (k : ℚ) ≤ 2 ^ 24 := by exact_mod_cast hk
    obtain ⟨q', hq', -, hex⟩ := round_ratio k 1 hpos (by norm_num) (k : ℚ) (by simp)
      (le_trans (by norm_num) hkq) (lt_of_le_of_lt hkq2 (by norm_num))
    have : q' = (k : ℚ) := hex ⟨k, 0, hk, by simp⟩
    rw [this] at hq'
    simpa using hq'

theorem holds_pos {x : F32} {q : ℚ} (h : F32.Holds x q) (hq : 0 < q) :
    ∃ (m : ℕ) (e : ℤ), x = F32.fin (m : ℤ) e ∧ 0 < m ∧ m ≤ 2 ^ 24 ∧ (m : ℚ) * 2 ^ e = q := by
  obtain ⟨m, e, hx, hm, hv⟩ := h
  refine ⟨m, e, hx, ?_, hm, hv⟩
  rcases Nat.eq_zero_or_pos m with hz | hp
  · subst hz
    simp at hv
    linarith
  · exact hp

theorem div_holds (x y : F32) (a b : ℚ) (hx : F32.Holds x a) (hy : F32.Holds y b)
    (ha : 0 < a) (hb : 0 < b) (hlo : (2 : ℚ) ^ (-126 : ℤ) ≤ a / b)
    (hhi : a / b < (2 : ℚ) ^ (127 : ℤ)) :
    ∃ q', F32.Holds (F32.div x y) q' ∧ |q' - a / b| ≤ a / b / 2 ^ 24
      ∧ (Fits24 (a / b) → q' = a / b) := by
  obtain ⟨m1, e1, rfl, hm1, -, hv1⟩ := holds_pos hx ha
  obtain ⟨m2, e2, rfl, hm2, -, hv2⟩ := holds_pos hy hb
  have hm2' : ((m2 : ℕ) : ℤ) ≠ 0 := by exact_mod_cast (ne_of_gt hm2)
  have hd : F32.div (F32.fin (m1 : ℤ) e1) (F32.fin (m2 : ℤ) e2)
      = F32.round false (m1 * 2 ^ (e1 - e2).toNat) (m2 * 2 ^ (e2 - e1).toNat) := by
    have hs1 : decide ((m1 : ℤ) < 0) = false := decide_eq_false (by omega)
    have hs2 : decide ((m2 : ℤ) < 0) = false := decide_eq_false (by omega)
    simp only [F32.div, if_neg hm2', hs1, hs2, Int.natAbs_ofNat]
    rfl
  rw [hd]
  apply round_ratio _ _ (by positivity) (by positivity)
  · have hz := zpow_toNat_div (e1 - e2)
    have hneg : -(e1 - e2) = e2 - e1 := by ring
    rw [hneg] at hz
    have two0 : (2 : ℚ) ≠ 0 := by norm_num
    push_cast
    rw [← hv1, ← hv2, mul_div_mul_comm, hz, zpow_sub₀ two0, mul_div_mul_comm]
  · exact hlo
  · exact hhi

theorem div_holds_zero (x y : F32) (b : ℚ) (hx : F32.Holds x 0) (hy : F32.Holds y b)
    (hb : 0 < b) : F32.Holds (F32.div x y) 0 := by
  obtain ⟨m1, e1, rfl, -, hv1⟩ := hx
  obtain ⟨m2, e2, rfl, hm2, -, hv2⟩ := holds_pos hy hb
  have hm1 : m1 = 0 := by
    have := two_zpow_pos e1
    rcases mul_eq_zero.1 hv1 with h | h
    · exact_mod_cast h
    · linarith
  subst hm1
  have hm2' : ((m2 : ℕ) : ℤ) ≠ 0 := by exact_mod_cast (ne_of_gt hm2)
  simpa [F32.div, hm2', F32.round] using holds_zero

theorem mul_holds (x y : F32) (a b : ℚ) (hx : F32.Holds x a) (hy : F32.Holds y b)
    (ha : 0 < a) (hb : 0 < b) (hlo : (2 : ℚ) ^ (-126 : ℤ) ≤ a * b)
    (hhi : a * b < (2 : ℚ) ^ (127 : ℤ)) :
    ∃ q', F32.Holds (F32.mul x y) q' ∧ |q' - a * b| ≤ a * b / 2 ^ 24
      ∧ (Fits24 (a * b) → q' = a * b) := by
  obtain ⟨m1, e1, rfl, hm1, -, hv1⟩ := holds_pos hx ha
  obtain ⟨m2, e2, rfl, hm2, -, hv2⟩ := holds_pos hy hb
  have hd : F32.mul (F32.fin (m1 : ℤ) e1) (F32.fin (m2 : ℤ) e2)
      = F32.round false (m1 * m2 * 2 ^ (e1 + e2).toNat) (2 ^ (-(e1 + e2)).toNat) := by
    have hs1 : decide ((m1 : ℤ) < 0) = false := decide_eq_false (by omega)
    have hs2 : decide ((m2 : ℤ) < 0) = false := decide_eq_false (by omega)
    simp only [F32.mul, hs1, hs2, Int.natAbs_ofNat]
    rfl
  rw [hd]
  apply round_ratio _ _ (by positivity) (by positivity)
  · have hz := zpow_toNat_div (e1 + e2)
    have two0 : (2 : ℚ) ≠ 0 := by norm_num
    push_cast
    rw [mul_div_assoc, hz, ← hv1, ← hv2, zpow_add₀ two0]
    ring
  · exact hlo
  · exact hhi

theorem mul_holds_zero (x y : F32) (b : ℚ) (hx : F32.Holds x 0) (hy : F32.Holds y b) :
    F32.Holds (F32.mul x y) 0 := by
  obtain ⟨m1, e1, rfl, -, hv1⟩ := hx
  obtain ⟨m2, e2, rfl, -, -⟩ := hy
  have hm1 : m1 = 0 := by
    have := two_zpow_pos e1
    rcases mul_eq_zero.1 hv1 with h | h
    · exact_mod_cast h
    · linarith
  subst hm1
  simpa [F32.mul, F32.round] using holds_zero

theorem add_holds (x y : F32) (a b : ℚ) (hx : F32.Holds x a) (hy : F32.Holds y b)
    (ha : 0 < a) (hb : 0 < b) (hlo : (2 : ℚ) ^ (-126 : ℤ) ≤ a + b)
    (hhi : a + b < (2 : ℚ) ^ (127 : ℤ)) :
    ∃ q', F32.Holds (F32.add x y) q' ∧ |q' - (a + b)| ≤ (a + b) / 2 ^ 24
      ∧ (Fits24 (a + b) → q' = a + b) := by
  obtain ⟨m1, e1, rfl, hm1, -, hv1⟩ := holds_pos hx ha
  obtain ⟨m2, e2, rfl, hm2, -, hv2⟩ := holds_pos hy hb
  have two0 : (2 : ℚ) ≠ 0 := by norm_num
  set e := min e1 e2 with he
  set s : ℕ := m1 * 2 ^ (e1 - e).toNat + m2 * 2 ^ (e2 - e).toNat with hs
  have hspos : 0 < s := by positivity
  have hsI : (m1 : ℤ) * 2 ^ (e1 - e).toNat + (m2 : ℤ) * 2 ^ (e2 - e).toNat = (s : ℤ) := by
    rw [hs]; push_cast; rfl
  have hd : F32.add (F32.fin (m1 : ℤ) e1) (F32.fin (m2 : ℤ) e2)
      = F32.round false (s * 2 ^ e.toNat) (2 ^ (-e).toNat) := by
    have hs1 : decide ((s : ℤ) < 0) = false := decide_eq_false (by omega)
    simp only [F32.add, ← he, hsI, hs1, Int.natAbs_ofNat]
  rw [hd]
  apply round_ratio _ _ (by positivity) (by positivity)
  · have hz := zpow_toNat_div e
    have h1 : (((e1 - e).toNat : ℕ) : ℤ) = e1 - e :=
      Int.toNat_of_nonneg (by have := min_le_left e1 e2; omega)
    have h2 : (((e2 - e).toNat : ℕ) : ℤ) = e2 - e :=
      Int.toNat_of_nonneg (by have := min_le_right e1 e2; omega)
    have p1 : (2 : ℚ) ^ (e1 - e).toNat * 2 ^ e = 2 ^ e1 := by
      rw [← zpow_natCast, h1, ← zpow_add₀ two0]; congr 1; ring
    have p2 : (2 : ℚ) ^ (e2 - e).toNat * 2 ^ e = 2 ^ e2 := by
      rw [← zpow_natCast, h2, ← zpow_add₀ two0]; congr 1; ring
    push_cast
    rw [mul_div_assoc, hz, hs]
    push_cast
    rw [add_mul, mul_assoc, mul_assoc, p1, p2, hv1, hv2]
  · exact hlo
  · exact hhi

/-- `round` and the conversion to `int`, on a finite non-negative number inside
the range of `int`: the floor of the value plus one half. -/
theorem roundToInt_holds (undef : F32 → Int) (x : F32) (q : ℚ) (hx : F32.Holds x q)
    (hq : q < 2 ^ 30) : F32.roundToInt undef x = ⌊q + 1 / 2⌋ := by
  obtain ⟨m, e, rfl, -, hv⟩ := hx
  have hm0 : ¬ ((m : ℤ) < 0) := by omega
  have two0 : (2 : ℚ) ≠ 0 := by norm_num
  -- the natural number `a` of the definition
  have key : ∀ a : ℕ, ((a : ℚ) ≤ q + 1 / 2 ∧ q + 1 / 2 < (a : ℚ) + 1) →
      (if INT_MIN ≤ (a : ℤ) ∧ (a : ℤ) ≤ INT_MAX then (a : ℤ) else undef (F32.fin (m : ℤ) e))
        = ⌊q + 1 / 2⌋ := by
    intro a ⟨h1, h2⟩
    have hfl : ⌊q + 1 / 2⌋ = (a : ℤ) := by
      rw [Int.floor_eq_iff]
      exact ⟨by exact_mod_cast h1, by exact_mod_cast h2⟩
    have ha : (a : ℚ) < 2 ^ 30 + 1 := by linarith
    have ha' : a < 2 ^ 30 + 1 := by exact_mod_cast ha
    have hin : INT_MIN ≤ (a : ℤ) ∧ (a : ℤ) ≤ INT_MAX := by
      unfold INT_MIN INT_MAX
      constructor <;> omega
    rw [if_pos hin, hfl]
  by_cases he : 0 ≤ e
  · have h2 : (((e.toNat : ℕ)) : ℤ) = e := Int.toNat_of_nonneg he
    have hval : ((m * 2 ^ e.toNat : ℕ) : ℚ) = q := by
      push_cast
      rw [← zpow_natCast, h2, hv]
    have := key (m * 2 ^ e.toNat) (by rw [hval]; constructor <;> linarith)
    simpa only [F32.roundToInt, if_neg hm0, if_pos he, Int.natAbs_ofNat] using this
  · set k := (-e).toNat with hk
    have h2 : ((k : ℕ) : ℤ) = -e := Int.toNat_of_nonneg (by omega)
    have hqk : q = (m : ℚ) / 2 ^ k := by
      rw [← hv, div_eq_mul_inv, ← zpow_natCast, h2, zpow_neg, inv_inv]
    have hpk : (0 : ℚ) < 2 ^ k := by positivity
    have hpos : 0 < 2 ^ (k + 1) := by positivity
    have hposq : (0 : ℚ) < 2 ^ (k + 1) := by positivity
    have hsum : q + 1 / 2 = ((2 * m + 2 ^ k : ℕ) : ℚ) / 2 ^ (k + 1) := by
      rw [hqk]; push_cast; rw [pow_succ]; field_simp; ring
    have d1 : (2 * m + 2 ^ k) / 2 ^ (k + 1) * 2 ^ (k + 1) ≤ 2 * m + 2 ^ k :=
      Nat.div_mul_le_self _ _
    have d2 : 2 * m + 2 ^ k < ((2 * m + 2 ^ k) / 2 ^ (k + 1) + 1) * 2 ^ (k + 1) := by
      have := Nat.lt_succ_iff.2 (le_refl ((2 * m + 2 ^ k) / 2 ^ (k + 1)))
      exact (Nat.div_lt_iff_lt_mul hpos).1 this
    have d1q : (((2 * m + 2 ^ k) / 2 ^ (k + 1) : ℕ) : ℚ) * 2 ^ (k + 1)
        ≤ ((2 * m + 2 ^ k : ℕ) : ℚ) := by exact_mod_cast d1
    have d2q : ((2 * m + 2 ^ k : ℕ) : ℚ)
        < ((((2 * m + 2 ^ k) / 2 ^ (k + 1) : ℕ) : ℚ) + 1) * 2 ^ (k + 1) := by exact_mod_cast d2
    have := key ((2 * m + 2 ^ k) / 2 ^ (k + 1)) (by
      rw [hsum]
      constructor
      · rw [le_div_iff₀ hposq]; exact d1q
      · rw [div_lt_iff₀ hposq]; exact d2q)
    simpa only [F32.roundToInt, if_neg hm0, if_neg he, Int.natAbs_ofNat] using this

theorem fits24_of_holds_mul_ONE {x : F32} {q : ℚ} (h : F32.Holds x q) : Fits24 (q * 8192) := by
  obtain ⟨m, e, -, hm, hv⟩ := h
  refine ⟨m, e + 13, hm, ?_⟩
  rw [← hv, zpow_add₀ (by norm_num : (2 : ℚ) ≠ 0)]
  norm_num
  ring

/-- The single-precision product `x * ONE` is exact and `round` takes it to the
nearest integer, for `x` a finite number between `2 ^ (-20)` and `2 ^ 14`. -/
theorem scale_and_round (undef : F32 → Int) (x : F32) (q : ℚ) (hx : F32.Holds x q)
    (hlo : (1 : ℚ) / 2 ^ 20 ≤ q) (hhi : q ≤ 2 ^ 14) :
    F32.roundToInt undef (F32.mul x (F32.ofInt ONE)) = ⌊q * 8192 + 1 / 2⌋ := by
  have hq0 : 0 < q := lt_of_lt_of_le (by positivity) hlo
  have hONE : F32.Holds (F32.ofInt ONE) 8192 := by
    have := ofInt_holds ONE (by decide) (by decide)
    simpa [ONE] using this
  obtain ⟨p, hp, -, hex⟩ := mul_holds x (F32.ofInt ONE) q 8192 hx hONE hq0 (by norm_num)
    (by
      have : (2 : ℚ) ^ (-126 : ℤ) ≤ 1 / 2 ^ 20 * 8192 := by
        rw [zpow_neg]; norm_num
      exact le_trans this (mul_le_mul_of_nonneg_right hlo (by norm_num)))
    (by
      have : (2 : ℚ) ^ 14 * 8192 < 2 ^ (127 : ℤ) := by norm_num
      exact lt_of_le_of_lt (mul_le_mul_of_nonneg_right hhi (by norm_num)) this)
  rw [hex (fits24_of_holds_mul_ONE hx)] at hp
  exact roundToInt_holds undef _ _ hp (by nlinarith)

/-- The modulation factor is the nearest integer to `8192 * p`, where `p` is the
single-precision quotient, within the relative error `2 ^ (-24)` of
`A_message / A_carrier`. -/
theorem mod_fact_spec (undef : F32 → Int) (A_m A_c : Int) (hm0 : 0 ≤ A_m) (hm1 : A_m ≤ 8192)
    (hc0 : 0 < A_c) (hc1 : A_c ≤ 8192) :
    ∃ p : ℚ, mod_fact undef A_m A_c = ⌊p * 8192 + 1 / 2⌋
      ∧ |p - (A_m : ℚ) / A_c| ≤ (A_m : ℚ) / A_c / 2 ^ 24 := by
  have hM := ofInt_holds A_m hm0 (by omega)
  have hC := ofInt_holds A_c (by omega) (by omega)
  have hcq : (0 : ℚ) < A_c := by exact_mod_cast hc0
  have hcq1 : (A_c : ℚ) ≤ 8192 := by exact_mod_cast hc1
  have hcq2 : (1 : ℚ) ≤ A_c := by
    have : (1 : ℤ) ≤ A_c := hc0
    exact_mod_cast this
  have hmq1 : (A_m : ℚ) ≤ 8192 := by exact_mod_cast hm1
  rcases eq_or_lt_of_le hm0 with hz | hpos
  · subst hz
    refine ⟨0, ?_, by simp⟩
    have h1 := div_holds_zero _ _ _ (by simpa using hM) hC hcq
    have hONE : F32.Holds (F32.ofInt ONE) 8192 := by
      have := ofInt_holds ONE (by decide) (by decide)
      simpa [ONE] using this
    have h2 := mul_holds_zero _ _ _ h1 hONE
    have h3 := roundToInt_holds undef _ _ h2 (by norm_num)
    unfold mod_fact
    rw [h3]
    norm_num
  · have hmq : (1 : ℚ) ≤ A_m := by exact_mod_cast hpos
    have hmq0 : (0 : ℚ) < A_m := by linarith
    have hr_lo : (1 : ℚ) / 8192 ≤ (A_m : ℚ) / A_c := by
      rw [div_le_div_iff₀ (by norm_num) hcq]; nlinarith
    have hr_hi : (A_m : ℚ) / A_c ≤ 8192 := by
      rw [div_le_iff₀ hcq]; nlinarith
    obtain ⟨p, hp, herr, -⟩ := div_holds _ _ _ _ hM hC hmq0 hcq
      (le_trans (by rw [zpow_neg]; norm_num) hr_lo) (lt_of_le_of_lt hr_hi (by norm_num))
    refine ⟨p, ?_, herr⟩
    rw [abs_le] at herr
    unfold mod_fact
    apply scale_and_round undef _ p hp
    · have : (A_m : ℚ) / A_c / 2 ^ 24 ≤ (A_m : ℚ) / A_c / 2 := by
        apply div_le_div_of_nonneg_left (by positivity) (by norm_num) (by norm_num)
      have h2 : (1 : ℚ) / 2 ^ 20 ≤ 1 / 8192 / 2 := by norm_num
      linarith [herr.1]
    · have : (A_m : ℚ) / A_c / 2 ^ 24 ≤ (A_m : ℚ) / A_c := by
        apply div_le_self (by positivity) (by norm_num)
      have h2 : (8192 : ℚ) + 8192 ≤ 2 ^ 14 := by norm_num
      linarith [herr.2]

/-- The output scale, when `A_carrier + A_message > ONE`, is the nearest integer to
`8192 * p`, where `p` is the single-precision quotient, within the relative error
`2 ^ (-24)` of `A_carrier / (A_message + A_carrier)`. -/
theorem mod_out_scale_spec (undef : F32 → Int) (A_m A_c : Int) (hm1 : A_m ≤ 8192)
    (hc1 : A_c ≤ 8192) (hsum : A_c + A_m > 8192) :
    ∃ p : ℚ, mod_out_scale undef A_m A_c = ⌊p * 8192 + 1 / 2⌋
      ∧ |p - (A_c : ℚ) / (A_m + A_c)| ≤ (A_c : ℚ) / (A_m + A_c) / 2 ^ 24 := by
  have hm0 : 0 < A_m := by omega
  have hc0 : 0 < A_c := by omega
  have hM := ofInt_holds A_m (by omega) (by omega)
  have hC := ofInt_holds A_c (by omega) (by omega)
  have hcq : (0 : ℚ) < A_c := by exact_mod_cast hc0
  have hmq : (0 : ℚ) < A_m := by exact_mod_cast hm0
  have hcq1 : (A_c : ℚ) ≤ 8192 := by exact_mod_cast hc1
  have hmq1 : (A_m : ℚ) ≤ 8192 := by exact_mod_cast hm1
  have hcq2 : (1 : ℚ) ≤ A_c := by
    have : (1 : ℤ) ≤ A_c := hc0
    exact_mod_cast this
  have hsq : (0 : ℚ) < (A_m : ℚ) + A_c := by linarith
  obtain ⟨s, hs, -, hsex⟩ := add_holds _ _ _ _ hM hC hmq hcq
    (le_trans (by rw [zpow_neg]; norm_num) (by linarith : (1 : ℚ) ≤ (A_m : ℚ) + A_c))
    (lt_of_le_of_lt (by linarith : (A_m : ℚ) + A_c ≤ 16384) (by norm_num))
  have hfit : Fits24 ((A_m : ℚ) + A_c) := by
    refine ⟨(A_m + A_c).toNat, 0, ?_, ?_⟩
    · have : A_m + A_c ≤ 16384 := by omega
      omega
    · have h : (((A_m + A_c).toNat : ℕ) : ℤ) = A_m + A_c := Int.toNat_of_nonneg (by omega)
      have h' : (((A_m + A_c).toNat : ℕ) : ℚ) = (A_m : ℚ) + A_c := by exact_mod_cast h
      rw [h']; simp
  rw [hsex hfit] at hs
  have hr_lo : (1 : ℚ) / 16384 ≤ (A_c : ℚ) / (A_m + A_c) := by
    rw [div_le_div_iff₀ (by norm_num) hsq]; nlinarith
  have hr_hi : (A_c : ℚ) / (A_m + A_c) ≤ 1 := by
    rw [div_le_iff₀ hsq]; linarith
  obtain ⟨p, hp, herr, -⟩ := div_holds _ _ _ _ hC hs hcq hsq
    (le_trans (by rw [zpow_neg]; norm_num) hr_lo) (lt_of_le_of_lt hr_hi (by norm_num))
  refine ⟨p, ?_, herr⟩
  rw [abs_le] at herr
  have hgt : A_c + A_m > ONE := by unfold ONE; exact hsum
  unfold mod_out_scale
  rw [if_pos hgt]
  apply scale_and_round undef _ p hp
  · have : (A_c : ℚ) / (A_m + A_c) / 2 ^ 24 ≤ (A_c : ℚ) / (A_m + A_c) / 2 := by
      apply div_le_div_of_nonneg_left (by positivity) (by norm_num) (by norm_num)
    have h2 : (1 : ℚ) / 2 ^ 20 ≤ 1 / 16384 / 2 := by norm_num
    linarith [herr.1]
  · have : (A_c : ℚ) / (A_m + A_c) / 2 ^ 24 ≤ (A_c : ℚ) / (A_m + A_c) := by
      apply div_le_self (by positivity) (by norm_num)
    have h2 : (1 : ℚ) + 1 ≤ 2 ^ 14 := by norm_num
    linarith [herr.2]

/-- From the nearest integer of `8192 * p`, with `p` within the relative error
`2 ^ (-24)` of `N / D`, to a bound between integers. -/
theorem scaled_bound (v N D : Int) (p : ℚ) (hD : 0 < D) (hN : 0 ≤ N)
    (hv : v = ⌊p * 8192 + 1 / 2⌋) (hp : |p - (N : ℚ) / D| ≤ (N : ℚ) / D / 2 ^ 24) :
    2 ^ 24 * |v * D - 8192 * N| ≤ 2 ^ 23 * D + 8192 * N := by
  have hDq : (0 : ℚ) < D := by exact_mod_cast hD
  have hNq : (0 : ℚ) ≤ N := by exact_mod_cast hN
  have f1 : (v : ℚ) ≤ p * 8192 + 1 / 2 := by rw [hv]; exact Int.floor_le _
  have f2 : p * 8192 + 1 / 2 < (v : ℚ) + 1 := by rw [hv]; exact Int.lt_floor_add_one _
  rw [abs_le] at hp
  obtain ⟨p1, p2⟩ := hp
  -- clear the denominators
  have e1 : (N : ℚ) / D / 2 ^ 24 * (D * 2 ^ 24) = N := by field_simp
  have e2 : (N : ℚ) / D * (D * 2 ^ 24) = N * 2 ^ 24 := by field_simp; ring
  have hpos : (0 : ℚ) < D * 2 ^ 24 := by positivity
  have q1 : p * (D * 2 ^ 24) ≤ (N : ℚ) * 2 ^ 24 + N := by
    have := mul_le_mul_of_nonneg_right p2 (le_of_lt hpos)
    rw [sub_mul, e1, e2] at this
    linarith
  have q2 : (N : ℚ) * 2 ^ 24 - N ≤ p * (D * 2 ^ 24) := by
    have := mul_le_mul_of_nonneg_right p1 (le_of_lt hpos)
    rw [sub_mul, neg_mul, e1, e2] at this
    linarith
  have g1 : (v : ℚ) * (D * 2 ^ 24) ≤ (p * 8192 + 1 / 2) * (D * 2 ^ 24) :=
    mul_le_mul_of_nonneg_right f1 (le_of_lt hpos)
  have g2 : (p * 8192 + 1 / 2) * (D * 2 ^ 24) ≤ ((v : ℚ) + 1) * (D * 2 ^ 24) :=
    mul_le_mul_of_nonneg_right (le_of_lt f2) (le_of_lt hpos)
  have key : |((2 ^ 24 * (v * D - 8192 * N) : ℤ) : ℚ)| ≤ ((2 ^ 23 * D + 8192 * N : ℤ) : ℚ) := by
    push_cast
    rw [abs_le]
    constructor <;> nlinarith
  have : |(2 ^ 24 * (v * D - 8192 * N) : ℤ)| ≤ 2 ^ 23 * D + 8192 * N := by
    exact_mod_cast key
  rwa [abs_mul, abs_of_pos (by norm_num : (0 : ℤ) < 2 ^ 24)] at this

/-! ## Lemmas on the amplitudes -/

theorem writePlan_at_0x78 (undef : F32 → Int) (v : Vars) :
    ((writePlan undef v).filter (fun w => w.1 == 0x78)).map (fun w => w.2)
      = [mod_fact undef v.A_message v.A_carrier] := by
  simp [writePlan, List.filter]

theorem writePlan_at_0x7C (undef : F32 → Int) (v : Vars) :
    ((writePlan undef v).filter (fun w => w.1 == 0x7C)).map (fun w => w.2)
      = [mod_out_scale undef v.A_message v.A_carrier] := by
  simp [writePlan, List.filter]

/-- The amplitudes that an accepted argument list leaves in the variables lie in
0..8192. -/
theorem amplitude_range (flag : String) (hf : flag = "-A_carrier" ∨ flag = "-A_message")
    (args : List String) (hacc : rejects args = false) :
    0 ≤ (lastValue flag args).getD 8192 ∧ (lastValue flag args).getD 8192 ≤ 8192 := by
  cases hl : lastValue flag args with
  | none => exact ⟨by decide, by decide⟩
  | some x =>
    have ha := allowed_of_lastValue flag args x hacc hl
    rcases hf with rfl | rfl <;> simp [allowed] at ha <;> exact ha

/-! ## Lemmas on the write plan, the warning and the order of the flags -/

theorem writePlan_offsets (undef : F32 → Int) (v : Vars) :
    (writePlan undef v).map (fun w => w.1) = planOffsets := rfl

theorem fir_change_coef_settings (args : List String) :
    (settings initVars args).fir_change_coef = 1 := rfl

theorem fir_shape_writePlan (undef : F32 → Int) (v : Vars) :
    (((writePlan undef v).filter (fun w => w.1 == 0x58)).map (fun w => w.2)).length = 6
      ∧ ((writePlan undef v).filter (fun w => w.1 == 0x54)).map (fun w => w.2)
          = [v.fir_change_coef]
      ∧ ((writesBefore 0x54 (writePlan undef v)).filter (fun w => w.1 == 0x58)).length = 6 := by
  refine ⟨?_, ?_, ?_⟩ <;> simp [writePlan, writesBefore, List.filter, List.takeWhile]

theorem warning_mem_iff (env : Env) (argv : List String) (hd : deviceReady env)
    (hacc : rejects argv.tail = false) :
    warningLine ∈ (main env argv).events
      ↔ (settings initVars argv.tail).A_carrier < (settings initVars argv.tail).A_message := by
  rw [main_of_accepts env argv hd hacc]
  simp only [List.mem_append, reportLines, configure, warningLine]
  constructor
  · intro h
    by_contra hn
    rw [if_neg (by simpa using hn)] at h
    simp at h
  · intro h
    rw [if_pos (by simpa using h)]
    simp

theorem mod_fact_unity (undef : F32 → Int) (A_m A_c : Int) (hm0 : 0 ≤ A_m) (hm1 : A_m ≤ 8192)
    (hc0 : 0 < A_c) (hc1 : A_c ≤ 8192) :
    (A_m ≤ A_c → mod_fact undef A_m A_c ≤ 8192)
      ∧ (A_c < A_m → 8193 ≤ mod_fact undef A_m A_c) := by
  obtain ⟨p, hv, hp⟩ := mod_fact_spec undef A_m A_c hm0 hm1 hc0 hc1
  have hcq : (0 : ℚ) < A_c := by exact_mod_cast hc0
  have hcq1 : (A_c : ℚ) ≤ 8192 := by exact_mod_cast hc1
  have hmq0 : (0 : ℚ) ≤ A_m := by exact_mod_cast hm0
  have hq0 : (0 : ℚ) ≤ (A_m : ℚ) / A_c := by positivity
  rw [abs_le] at hp
  obtain ⟨p1, p2⟩ := hp
  constructor
  · intro hle
    have hleq : (A_m : ℚ) ≤ A_c := by exact_mod_cast hle
    have hq1 : (A_m : ℚ) / A_c ≤ 1 := by rw [div_le_iff₀ hcq]; linarith
    have hd : (A_m : ℚ) / A_c / 2 ^ 24 ≤ 1 / 2 ^ 24 :=
      div_le_div_of_nonneg_right hq1 (by positivity)
    have : mod_fact undef A_m A_c < 8193 := by
      rw [hv, Int.floor_lt]
      push_cast
      have e : (1 : ℚ) / 2 ^ 24 * 8192 < 1 / 2 := by norm_num
      nlinarith
    omega
  · intro hlt
    have hlt' : A_c + 1 ≤ A_m := hlt
    have hltq : (A_c : ℚ) + 1 ≤ A_m := by exact_mod_cast hlt'
    have hq1 : 1 + 1 / 8192 ≤ (A_m : ℚ) / A_c := by
      rw [le_div_iff₀ hcq]
      nlinarith
    rw [hv, Int.le_floor]
    push_cast
    have e : (A_m : ℚ) / A_c / 2 ^ 24 = (A_m : ℚ) / A_c * (1 / 2 ^ 24) := by ring
    rw [e] at p1
    have hp' : (A_m : ℚ) / A_c * (1 - 1 / 2 ^ 24) ≤ p := by linarith
    have hk : (1 + 1 / 8192 : ℚ) * (1 - 1 / 2 ^ 24) ≤ (A_m : ℚ) / A_c * (1 - 1 / 2 ^ 24) :=
      mul_le_mul_of_nonneg_right hq1 (by norm_num)
    have hn : (8193 : ℚ) ≤ (1 + 1 / 8192 : ℚ) * (1 - 1 / 2 ^ 24) * 8192 + 1 / 2 := by norm_num
    linarith

theorem holds_isFinite {x : F32} {q : ℚ} (h : F32.Holds x q) : F32.isFinite x = true := by
  obtain ⟨m, e, rfl, -, -⟩ := h
  rfl

theorem quotient_isFinite (A_m A_c : Int) (hm0 : 0 ≤ A_m) (hm1 : A_m ≤ 8192)
    (hc0 : 0 < A_c) (hc1 : A_c ≤ 8192) :
    F32.isFinite (F32.div (F32.ofInt A_m) (F32.ofInt A_c)) = true := by
  have hM := ofInt_holds A_m hm0 (by omega)
  have hC := ofInt_holds A_c (by omega) (by omega)
  have hcq : (0 : ℚ) < A_c := by exact_mod_cast hc0
  have hcq1 : (A_c : ℚ) ≤ 8192 := by exact_mod_cast hc1
  have hmq1 : (A_m : ℚ) ≤ 8192 := by exact_mod_cast hm1
  have hcq2 : (1 : ℚ) ≤ A_c := by
    have : (1 : ℤ) ≤ A_c := hc0
    exact_mod_cast this
  rcases eq_or_lt_of_le hm0 with hz | hpos
  · subst hz
    exact holds_isFinite (div_holds_zero _ _ _ (by simpa using hM) hC hcq)
  · have hmq : (1 : ℚ) ≤ A_m := by exact_mod_cast hpos
    have hmq0 : (0 : ℚ) < A_m := by linarith
    have hr_lo : (1 : ℚ) / 8192 ≤ (A_m : ℚ) / A_c := by
      rw [div_le_div_iff₀ (by norm_num) hcq]; nlinarith
    have hr_hi : (A_m : ℚ) / A_c ≤ 8192 := by
      rw [div_le_iff₀ hcq]; nlinarith
    obtain ⟨p, hp, -, -⟩ := div_holds _ _ _ _ hM hC hmq0 hcq
      (le_trans (by rw [zpow_neg]; norm_num) hr_lo) (lt_of_le_of_lt hr_hi (by norm_num))
    exact holds_isFinite hp

theorem quotient_by_zero (A_m : Int) (hm0 : 0 ≤ A_m) (hm1 : A_m ≤ 8192) :
    F32.isFinite (F32.div (F32.ofInt A_m) (F32.ofInt 0)) = false := by
  obtain ⟨m, e, hx, -, -⟩ := ofInt_holds A_m hm0 (by omega)
  rw [hx]
  have h0 : F32.ofInt 0 = F32.fin 0 0 := by decide
  rw [h0]
  by_cases hm : (m : ℤ) = 0
  · simp [F32.div, hm, F32.isFinite]
  · simp [F32.div, hm, F32.isFinite]

/-- After an accepted argument list the carrier amplitude, the divisor of line
255, lies in 0..8192.  It is zero exactly when the
last `-A_carrier` value reads 0, which the validation accepts.  When it is not
zero the single-precision quotient is a finite number; when it is zero the
quotient is an infinity or a NaN. -/
theorem carrier_divisor_cases (args : List String) (A_c A_m : Int) (hacc : rejects args = false)
    (hc : (lastValue "-A_carrier" args).getD 8192 = A_c)
    (hm : (lastValue "-A_message" args).getD 8192 = A_m) :
    (0 ≤ A_c ∧ A_c ≤ 8192)
      ∧ (A_c = 0 ↔ lastValue "-A_carrier" args = some 0)
      ∧ (A_c ≠ 0 → F32.isFinite (F32.div (F32.ofInt A_m) (F32.ofInt A_c)) = true)
      ∧ (A_c = 0 → F32.isFinite (F32.div (F32.ofInt A_m) (F32.ofInt A_c)) = false) := by
  have rc := amplitude_range "-A_carrier" (Or.inl rfl) args hacc
  have rm := amplitude_range "-A_message" (Or.inr rfl) args hacc
  rw [hc] at rc
  rw [hm] at rm
  refine ⟨rc, ?_, ?_, ?_⟩
  · rw [← hc]
    cases hl : lastValue "-A_carrier" args with
    | none => simp
    | some x => simp
  · intro hne
    exact quotient_isFinite A_m A_c rm.1 rm.2 (by omega) rc.2
  · intro hz
    rw [hz]
    exact quotient_by_zero A_m rm.1 rm.2

theorem not_mem_flagsOf_lastValue (flag : String) (args : List String)
    (hacc : rejects args = false) (h : flag ∉ flagsOf args) : lastValue flag args = none := by
  cases hl : lastValue flag args with
  | none => rfl
  | some x =>
    exfalso
    apply h
    rw [← lastValue_isSome_iff flag args hacc, hl]
    rfl

theorem rejects_argsOf (ps : List (String × String)) :
    rejects (argsOf ps) = false
      ↔ ∀ p ∈ ps, p.1 ∈ knownFlags ∧ allowed p.1 (atoi p.2) = true := by
  induction ps with
  | nil => simp [argsOf, rejects]
  | cons p ps ih =>
    simp only [argsOf, rejects, Bool.or_eq_false_iff, List.forall_mem_cons, ih]
    simp

theorem lastValue_argsOf_none (flag : String) (ps : List (String × String))
    (h : flag ∉ ps.map (fun p => p.1)) : lastValue flag (argsOf ps) = none := by
  induction ps with
  | nil => rfl
  | cons p ps ih =>
    simp only [List.map_cons, List.mem_cons, not_or] at h
    rw [argsOf, lastValue_cons_cons, ih h.2]
    have : ¬ p.1 = flag := fun e => h.1 e.symm
    simp [this]

theorem lastValue_argsOf_iff (flag : String) (ps : List (String × String))
    (hn : (ps.map (fun p => p.1)).Nodup) (x : Int) :
    lastValue flag (argsOf ps) = some x ↔ ∃ val, (flag, val) ∈ ps ∧ atoi val = x := by
  induction ps with
  | nil => simp [argsOf, lastValue]
  | cons p ps ih =>
    rw [List.map_cons, List.nodup_cons] at hn
    rw [argsOf]
    by_cases hf : p.1 = flag
    · rw [lastValue_cons_cons]
      have hnone : lastValue flag (argsOf ps) = none :=
        lastValue_argsOf_none flag ps (by rw [← hf]; exact hn.1)
      rw [hnone]
      simp only [hf, if_true, Option.some.injEq, List.mem_cons]
      constructor
      · intro h
        exact ⟨p.2, Or.inl (by rw [← hf]), h⟩
      · rintro ⟨val, hmem | hmem, hv⟩
        · have : p.2 = val := by rw [Prod.ext_iff] at hmem; exact hmem.2.symm
          rw [this]; exact hv
        · exfalso
          apply hn.1
          rw [hf]
          exact List.mem_map.2 ⟨(flag, val), hmem, rfl⟩
    · rw [lastValue_cons_ne _ _ _ _ hf, ih hn.2]
      constructor
      · rintro ⟨val, hmem, hv⟩
        exact ⟨val, List.mem_cons_of_mem _ hmem, hv⟩
      · rintro ⟨val, hmem, hv⟩
        rcases List.mem_cons.1 hmem with h | h
        · exfalso
          apply hf
          rw [Prod.ext_iff] at h
          exact h.1.symm
        · exact ⟨val, h, hv⟩

theorem lastValue_argsOf_perm (flag : String) (ps qs : List (String × String))
    (hperm : ps.Perm qs) (hn : (ps.map (fun p => p.1)).Nodup) :
    lastValue flag (argsOf qs) = lastValue flag (argsOf ps) := by
  have hn' : (qs.map (fun p => p.1)).Nodup := (hperm.map _).nodup_iff.1 hn
  apply Option.ext
  intro x
  rw [Option.mem_def, Option.mem_def, lastValue_argsOf_iff flag qs hn' x,
    lastValue_argsOf_iff flag ps hn x]
  constructor
  · rintro ⟨val, hmem, hv⟩
    exact ⟨val, hperm.mem_iff.2 hmem, hv⟩
  · rintro ⟨val, hmem, hv⟩
    exact ⟨val, hperm.mem_iff.1 hmem, hv⟩

theorem settings_argsOf_perm (ps qs : List (String × String))
    (hperm : ps.Perm qs) (hn : (ps.map (fun p => p.1)).Nodup) :
    settings initVars (argsOf qs) = settings initVars (argsOf ps) := by
  simp only [settings, lastValue_argsOf_perm _ ps qs hperm hn]

/-- An accepted argument list is made of flag/value pairs. -/
theorem accepted_is_argsOf (args : List String) (h : rejects args = false) :
    ∃ ps : List (String × String), args = argsOf ps := by
  induction args using rejects.induct with
  | case1 => exact ⟨[], rfl⟩
  | case2 a => simp [rejects] at h
  | case3 f val tl ih =>
    simp only [rejects, Bool.or_eq_false_iff] at h
    obtain ⟨ps, hps⟩ := ih h.2
    exact ⟨(f, val) :: ps, by rw [hps]; rfl⟩

/-! ## The claims -/

/-- C1 (validate, then act).  If some flag that the parser reaches is not a known
flag, or is the last argument and so has no value, or has a value whose integer
reading is outside the range of the flag, then the run returns 1 and writes no
register, whatever the device does. -/
theorem C1_rejected_run_writes_nothing (env : Env) (argv : List String)
    (h : rejects argv.tail = true) :
    (main env argv).status = Status.exit 1 ∧ writes (main env argv) = [] :=
  main_of_rejects env argv h

theorem C1_rejected_run_writes_nothing_witness :
    rejects (List.tail ["config_fir_mod", "-fir_en", "1", "-A_carrier", "8193", "-avg", "0"]) = true
      ∧ (main readyEnv ["config_fir_mod", "-fir_en", "1", "-A_carrier", "8193", "-avg", "0"]).status
          = Status.exit 1
      ∧ writes (main readyEnv ["config_fir_mod", "-fir_en", "1", "-A_carrier", "8193", "-avg", "0"])
          = [] :=
  ⟨by decide, C1_rejected_run_writes_nothing readyEnv _ (by decide)⟩

/-- C2 (FIR programming sequence).  Take a run in which a `-fir` flag with value
`val` comes after accepted flag/value pairs `pre`.  If the value reads as an index
in 0..11, the device is ready, and the arguments `post` after it are accepted and
hold no further `-fir`, then the writes to `0x58` and `0x54` are the six entries of
that row of `fir_coef_table`, in table order, each to `0x58`, followed by one
write to `0x54`.  If the value reads outside 0..11, the run returns 1 and writes
no register. -/
theorem C2_fir_sequence (env : Env) (prog val : String) (pre post : List String)
    (hpre : rejects pre = false) :
    ((0 ≤ atoi val ∧ atoi val ≤ 11) → deviceReady env → rejects post = false →
        lastValue "-fir" post = none →
        firWrites (main env (prog :: (pre ++ "-fir" :: val :: post)))
          = (fir_coef_table.getD (atoi val).toNat []).map (fun c => ((0x58 : Nat), c))
              ++ [(0x54, 1)])
    ∧ (¬ (0 ≤ atoi val ∧ atoi val ≤ 11) →
        (main env (prog :: (pre ++ "-fir" :: val :: post))).status = Status.exit 1
          ∧ writes (main env (prog :: (pre ++ "-fir" :: val :: post))) = []) := by
  constructor
  · intro hval hd hpost hlast
    have hacc : rejects (List.tail (prog :: (pre ++ "-fir" :: val :: post))) = false := by
      rw [List.tail_cons, rejects_append _ _ hpre]
      simp [rejects, knownFlags, allowed, hval.1, hval.2, hpost]
    have hl : lastValue "-fir" (pre ++ "-fir" :: val :: post) = some (atoi val) := by
      rw [lastValue_append _ _ _ hpre, lastValue_cons_self, hlast]
      rfl
    rw [firWrites, writes_main_of_accepts env _ hd hacc, firWrites_writePlan, List.tail_cons]
    simp only [settings, hl, Option.map_some', Option.getD_some, initVars]
    rw [← firRow_eq (atoi val) hval.1 hval.2]
    rfl
  · intro hval
    apply main_of_rejects
    rw [List.tail_cons, rejects_append _ _ hpre]
    have : allowed "-fir" (atoi val) = false := by
      simp only [allowed, if_true, decide_eq_false_iff_not]
      exact hval
    simp [rejects, this]

theorem C2_fir_sequence_witness :
    firWrites (main readyEnv ["config_fir_mod", "-fir", "5"])
        = [(0x58, -81), (0x58, -22), (0x58, -42), (0x58, -210), (0x58, 123), (0x58, 511),
           (0x54, 1)]
      ∧ (main readyEnv ["config_fir_mod", "-fir", "12"]).status = Status.exit 1
      ∧ writes (main readyEnv ["config_fir_mod", "-fir", "12"]) = [] :=
  ⟨(C2_fir_sequence readyEnv "config_fir_mod" "5" [] [] rfl).1 (by decide) ⟨rfl, rfl⟩ rfl rfl,
   (C2_fir_sequence readyEnv "config_fir_mod" "12" [] [] rfl).2 (by decide)⟩

/-- C3, as the code has it.  In a run on a ready device with accepted arguments
that leave the amplitudes `A_c > 0` and `A_m` (the last `-A_carrier` and
`-A_message` readings, 8192 where none is given), the register `0x78` is written
once, with a value `v` that is `round` of the single-precision product
`(float)A_m / (float)A_c * 8192`; it lies within `1/2 + q / 2^24` of the exact
quotient `q = A_m * 8192 / A_c`, stated here after multiplying by `2^24 * A_c`. -/
theorem C3_mod_fact_error (env : Env) (argv : List String) (A_c A_m : Int)
    (hd : deviceReady env) (hacc : rejects argv.tail = false)
    (hc : (lastValue "-A_carrier" argv.tail).getD 8192 = A_c)
    (hm : (lastValue "-A_message" argv.tail).getD 8192 = A_m) (hpos : 0 < A_c) :
    ∃ v : Int, writtenTo 0x78 (main env argv) = [v]
      ∧ 2 ^ 24 * |v * A_c - 8192 * A_m| ≤ 2 ^ 23 * A_c + 8192 * A_m := by
  have rc := amplitude_range "-A_carrier" (Or.inl rfl) argv.tail hacc
  have rm := amplitude_range "-A_message" (Or.inr rfl) argv.tail hacc
  rw [hc] at rc
  rw [hm] at rm
  refine ⟨mod_fact env.undefConv A_m A_c, ?_, ?_⟩
  · rw [writtenTo_main_of_accepts env argv hd hacc, writePlan_at_0x78]
    have h1 : (settings initVars argv.tail).A_carrier = A_c := hc
    have h2 : (settings initVars argv.tail).A_message = A_m := hm
    rw [h1, h2]
  · obtain ⟨p, hv, hp⟩ := mod_fact_spec env.undefConv A_m A_c rm.1 rm.2 hpos rc.2
    exact scaled_bound _ A_m A_c p hpos rm.1 hv hp

theorem C3_mod_fact_error_witness :
    ∃ v : Int, writtenTo 0x78
        (main readyEnv ["config_fir_mod", "-A_carrier", "8192", "-A_message", "4096"]) = [v]
      ∧ 2 ^ 24 * |v * 8192 - 8192 * 4096| ≤ 2 ^ 23 * 8192 + 8192 * 4096 :=
  C3_mod_fact_error readyEnv ["config_fir_mod", "-A_carrier", "8192", "-A_message", "4096"]
    8192 4096 ⟨rfl, rfl⟩ (by decide) (by decide) (by decide) (by decide)

/-- C3 fails as stated: with `A_c = 3` and `A_m = 1538` the exact quotient is
`4199765 + 1/3`, whose nearest integer is 4199765, and the run writes 4199766 to
`0x78` (the single-precision quotient is `8399531 * 2^(-14)`, and 8192 times it is
`4199765.5`).  The witness of the claim, `A_c = 8192`, `A_m = 4096`, does give
4096. -/
theorem C3_counterexample :
    writtenTo 0x78 (main readyEnv ["config_fir_mod", "-A_carrier", "3", "-A_message", "1538"])
        = [4199766]
      ∧ nearestInt (1538 * 8192) 3 = 4199765
      ∧ 3 * 4199765 < 1538 * 8192 ∧ 2 * (1538 * 8192 - 3 * 4199765) < 3
      ∧ F32.div (F32.ofInt 1538) (F32.ofInt 3) = F32.fin 8399531 (-14)
      ∧ writtenTo 0x78
          (main readyEnv ["config_fir_mod", "-A_carrier", "8192", "-A_message", "4096"])
        = [4096] := by
  decide

/-- C4, as the code has it.  In a run on a ready device with accepted arguments
that leave the amplitudes `A_c` and `A_m`, the register `0x7C` is written once:
with 8192 when `A_c + A_m ≤ 8192`, and otherwise with a value `v` that is `round`
of the single-precision product `(float)A_c / ((float)A_m + (float)A_c) * 8192`;
it lies within `1/2 + q / 2^24` of the exact quotient `q = A_c * 8192 / (A_m + A_c)`,
stated here after multiplying by `2^24 * (A_m + A_c)`. -/
theorem C4_mod_out_scale_error (env : Env) (argv : List String) (A_c A_m : Int)
    (hd : deviceReady env) (hacc : rejects argv.tail = false)
    (hc : (lastValue "-A_carrier" argv.tail).getD 8192 = A_c)
    (hm : (lastValue "-A_message" argv.tail).getD 8192 = A_m) :
    ∃ v : Int, writtenTo 0x7C (main env argv) = [v]
      ∧ (A_c + A_m ≤ 8192 → v = 8192)
      ∧ (8192 < A_c + A_m →
          2 ^ 24 * |v * (A_m + A_c) - 8192 * A_c| ≤ 2 ^ 23 * (A_m + A_c) + 8192 * A_c) := by
  have rc := amplitude_range "-A_carrier" (Or.inl rfl) argv.tail hacc
  have rm := amplitude_range "-A_message" (Or.inr rfl) argv.tail hacc
  rw [hc] at rc
  rw [hm] at rm
  refine ⟨mod_out_scale env.undefConv A_m A_c, ?_, ?_, ?_⟩
  · rw [writtenTo_main_of_accepts env argv hd hacc, writePlan_at_0x7C]
    have h1 : (settings initVars argv.tail).A_carrier = A_c := hc
    have h2 : (settings initVars argv.tail).A_message = A_m := hm
    rw [h1, h2]
  · intro hle
    have : ¬ (A_c + A_m > ONE) := by unfold ONE; omega
    unfold mod_out_scale
    rw [if_neg this]
    rfl
  · intro hgt
    obtain ⟨p, hv, hp⟩ := mod_out_scale_spec env.undefConv A_m A_c rm.2 rc.2 hgt
    have hp' : |p - ((A_c : ℤ) : ℚ) / ((A_m + A_c : ℤ) : ℚ)|
        ≤ ((A_c : ℤ) : ℚ) / ((A_m + A_c : ℤ) : ℚ) / 2 ^ 24 := by
      push_cast
      exact hp
    exact scaled_bound _ A_c (A_m + A_c) p (by omega) rc.1 hv hp'

theorem C4_mod_out_scale_error_witness :
    ∃ v : Int, writtenTo 0x7C
        (main readyEnv ["config_fir_mod", "-A_carrier", "8192", "-A_message", "4096"]) = [v]
      ∧ ((8192 : Int) + 4096 ≤ 8192 → v = 8192)
      ∧ ((8192 : Int) < 8192 + 4096 →
          2 ^ 24 * |v * (4096 + 8192) - 8192 * 8192| ≤ 2 ^ 23 * (4096 + 8192) + 8192 * 8192) :=
  C4_mod_out_scale_error readyEnv
    ["config_fir_mod", "-A_carrier", "8192", "-A_message", "4096"]
    8192 4096 ⟨rfl, rfl⟩ (by decide) (by decide) (by decide)

/-- C4 fails as stated: with `A_c = 1108` and `A_m = 7459` the exact quotient
`1108 * 8192 / 8567` lies just below `1059.5`, so its nearest integer is 1059, and
the run writes 1060 to `0x7C`.  The witness of the claim, `A_c = 8192`,
`A_m = 4096`, does give 5461. -/
theorem C4_counterexample :
    writtenTo 0x7C (main readyEnv ["config_fir_mod", "-A_carrier", "1108", "-A_message", "7459"])
        = [1060]
      ∧ (8192 : Int) < 1108 + 7459
      ∧ nearestInt (1108 * 8192) (7459 + 1108) = 1059
      ∧ 2 * (1108 * 8192) < (2 * 1059 + 1) * (7459 + 1108)
      ∧ (2 * 1059 - 1) * (7459 + 1108) < 2 * (1108 * 8192)
      ∧ writtenTo 0x7C
          (main readyEnv ["config_fir_mod", "-A_carrier", "8192", "-A_message", "4096"])
        = [5461] := by
  decide

/-- C5 (`In16` on 16-bit words).  A register word in 0..32767 is returned
unchanged, and a word in 32768..65535 is returned less 65536, a negative number
in -32768..-1. -/
theorem C5_In16_sixteen_bit (raw : Nat) :
    (raw ≤ 32767 → In16 raw = (raw : Int))
      ∧ (32768 ≤ raw → raw ≤ 65535 →
          In16 raw = (raw : Int) - 65536 ∧ -32768 ≤ In16 raw ∧ In16 raw ≤ -1) := by
  constructor
  · intro h
    rw [In16_eq raw (by omega)]
    split_ifs <;> omega
  · intro h1 h2
    rw [In16_eq raw (by omega)]
    split_ifs <;> omega

theorem C5_In16_sixteen_bit_witness :
    In16 1234 = 1234 ∧ In16 40000 = -25536 ∧ In16 65535 = -1 :=
  ⟨(C5_In16_sixteen_bit 1234).1 (by decide),
   ((C5_In16_sixteen_bit 40000).2 (by decide) (by decide)).1,
   ((C5_In16_sixteen_bit 65535).2 (by decide) (by decide)).1⟩

/-- C6, as the code has it.  `In16` does not mask the word.  On a 32-bit word
`raw` its result is the signed reading of the low 16 bits exactly when
`raw < 98304` or `raw ≥ 2^32 - 32768` (so whenever the upper 16 bits are zero),
and exactly then it lies in -32768..32767. -/
theorem C6_In16_low_bits_iff (raw : Nat) (h : raw < 4294967296) :
    (In16 raw = signed16 raw ↔ (raw < 98304 ∨ 4294934528 ≤ raw))
      ∧ ((-32768 ≤ In16 raw ∧ In16 raw ≤ 32767) ↔ (raw < 98304 ∨ 4294934528 ≤ raw)) := by
  rw [In16_eq raw h]
  simp only [signed16]
  constructor
  · split_ifs <;> constructor <;> intro hh <;> omega
  · split_ifs <;> constructor <;> intro hh <;> omega

theorem C6_In16_low_bits_iff_witness :
    (In16 70000 = signed16 70000 ↔ ((70000 : Nat) < 98304 ∨ 4294934528 ≤ (70000 : Nat)))
      ∧ ((-32768 ≤ In16 70000 ∧ In16 70000 ≤ 32767)
          ↔ ((70000 : Nat) < 98304 ∨ 4294934528 ≤ (70000 : Nat))) :=
  C6_In16_low_bits_iff 70000 (by decide)

/-- C6 fails as stated: the word `0x20000` has low 16 bits zero, whose signed
reading is 0, and `In16` returns 65536 for it, outside -32768..32767 and not the
result for the word 0, which has the same low 16 bits. -/
theorem C6_counterexample :
    In16 131072 = 65536 ∧ signed16 131072 = 0 ∧ ¬ In16 131072 ≤ 32767
      ∧ 131072 % 65536 = 0 % 65536 ∧ In16 131072 ≠ In16 0 := by
  decide

/-- C7 (carrier-channel encoding).  In a run on a ready device with accepted
arguments, the register `0x74` is written once: with 0 when the last `-mod_ch`
value reads 1 (or no `-mod_ch` is given), with 1 when it reads 2.  A `-mod_ch`
value that the parser reaches and that reads neither 1 nor 2 ends the run with
status 1 and no register write.  In every run, whatever is written to `0x74` is
0 or 1. -/
theorem C7_carrier_channel (env : Env) (argv : List String) :
    (deviceReady env → rejects argv.tail = false →
        (lastValue "-mod_ch" argv.tail = some 1 → writtenTo 0x74 (main env argv) = [0])
          ∧ (lastValue "-mod_ch" argv.tail = some 2 → writtenTo 0x74 (main env argv) = [1])
          ∧ (lastValue "-mod_ch" argv.tail = none → writtenTo 0x74 (main env argv) = [0]))
      ∧ (∀ (pre post : List String) (val : String),
          argv.tail = pre ++ "-mod_ch" :: val :: post → rejects pre = false →
          atoi val ≠ 1 → atoi val ≠ 2 →
          (main env argv).status = Status.exit 1 ∧ writes (main env argv) = [])
      ∧ (∀ x ∈ writtenTo 0x74 (main env argv), x = 0 ∨ x = 1) := by
  refine ⟨?_, ?_, ?_⟩
  · intro hd hacc
    rw [writtenTo_main_of_accepts env argv hd hacc, writePlan_at_0x74]
    have hs : (settings initVars argv.tail).mod_car_ch
        = (lastValue "-mod_ch" argv.tail).getD 1 := rfl
    rw [hs]
    refine ⟨?_, ?_, ?_⟩ <;> intro hl <;> rw [hl] <;> rfl
  · intro pre post val hargs hpre h1 h2
    apply main_of_rejects
    rw [hargs, rejects_append _ _ hpre]
    have : allowed "-mod_ch" (atoi val) = false := by
      simp [allowed, h1, h2]
    simp [rejects, this]
  · intro x hx
    rcases writes_main_cases env argv with h | ⟨hd, hacc⟩
    · simp [writtenTo, h] at hx
    · rw [writtenTo_main_of_accepts env argv hd hacc, writePlan_at_0x74] at hx
      rw [List.mem_singleton] at hx
      rcases mod_car_ch_settings argv.tail hacc with h | h <;> rw [hx, h] <;> decide

theorem C7_carrier_channel_witness :
    writtenTo 0x74 (main readyEnv ["config_fir_mod", "-mod_ch", "2"]) = [1]
      ∧ writtenTo 0x74 (main readyEnv ["config_fir_mod", "-mod", "1", "-mod_ch", "1"]) = [0]
      ∧ ((main readyEnv ["config_fir_mod", "-mod", "1", "-mod_ch", "3"]).status = Status.exit 1
          ∧ writes (main readyEnv ["config_fir_mod", "-mod", "1", "-mod_ch", "3"]) = []) :=
  ⟨((C7_carrier_channel readyEnv ["config_fir_mod", "-mod_ch", "2"]).1 ⟨rfl, rfl⟩
      (by decide)).2.1 (by decide),
   ((C7_carrier_channel readyEnv ["config_fir_mod", "-mod", "1", "-mod_ch", "1"]).1 ⟨rfl, rfl⟩
      (by decide)).1 (by decide),
   (C7_carrier_channel readyEnv ["config_fir_mod", "-mod", "1", "-mod_ch", "3"]).2.1
      ["-mod", "1"] [] "3" rfl (by decide) (by decide) (by decide)⟩

/-- C8, evaluated on the code.  The run `config_fir_mod -fir 12` on a device that
opens and maps returns 1 right after the message for the invalid filter number:
both `mmap` calls succeeded and no `munmap` was called.  The run without
arguments, which returns 0, calls `munmap` twice. -/
theorem C8_early_return_keeps_mappings :
    (main readyEnv ["config_fir_mod", "-fir", "12"]).status = Status.exit 1
      ∧ mapsDone (main readyEnv ["config_fir_mod", "-fir", "12"]) = 2
      ∧ unmapsDone (main readyEnv ["config_fir_mod", "-fir", "12"]) = 0
      ∧ (main readyEnv ["config_fir_mod"]).status = Status.exit 0
      ∧ mapsDone (main readyEnv ["config_fir_mod"]) = 2
      ∧ unmapsDone (main readyEnv ["config_fir_mod"]) = 2 := by
  decide

/-- C9, as the code has it (scenario A).  On a ready device the run with the
arguments `-fir 0 -fir_en 1` first writes 1 to the FIR-enable register `0x50`,
then pushes 21, -25, -80, 32, 320, 486 in that order to `0x58`, then writes the
commit 1 to `0x54`; these are all its writes to the three registers. -/
theorem C9_scenario_A (env : Env) (prog : String) (hd : deviceReady env) :
    firEnableAndCoefWrites (main env [prog, "-fir", "0", "-fir_en", "1"])
      = [(0x50, 1), (0x58, 21), (0x58, -25), (0x58, -80), (0x58, 32), (0x58, 320),
         (0x58, 486), (0x54, 1)] := by
  have hacc : rejects (List.tail [prog, "-fir", "0", "-fir_en", "1"]) = false := by
    show rejects ["-fir", "0", "-fir_en", "1"] = false
    decide
  rw [firEnableAndCoefWrites, writes_main_of_accepts env _ hd hacc]
  have hs : settings initVars (List.tail [prog, "-fir", "0", "-fir_en", "1"])
      = { initVars with fir_en := 1, fir_coef := [21, -25, -80, 32, 320, 486] } := by
    show settings initVars ["-fir", "0", "-fir_en", "1"] = _
    decide
  rw [hs]
  simp [writePlan, List.filter, initVars]

theorem C9_scenario_A_witness :
    deviceReady readyEnv
      ∧ firEnableAndCoefWrites (main readyEnv ["config_fir_mod", "-fir", "0", "-fir_en", "1"])
        = [(0x50, 1), (0x58, 21), (0x58, -25), (0x58, -80), (0x58, 32), (0x58, 320),
           (0x58, 486), (0x54, 1)] :=
  ⟨⟨rfl, rfl⟩, C9_scenario_A readyEnv "config_fir_mod" ⟨rfl, rfl⟩⟩

/-- C9 fails as stated: in the run `-fir 0 -fir_en 1` the only write to the
FIR-enable register `0x50` is the sixth write of the run, before the first push;
no write after the commit to `0x54` goes to `0x50`. -/
theorem C9_counterexample :
    writes (main readyEnv ["config_fir_mod", "-fir", "0", "-fir_en", "1"])
        = [(0x10, 0), (0x14, 0), (0x18, 0), (0x1C, 0), (0x30, 0), (0x50, 1),
           (0x58, 21), (0x58, -25), (0x58, -80), (0x58, 32), (0x58, 320), (0x58, 486),
           (0x54, 1), (0x60, 0), (0x64, 1), (0x68, 0), (0x70, 0), (0x74, 0),
           (0x78, 8192), (0x7C, 4096)]
      ∧ (writesAfter 0x54 (writes (main readyEnv
            ["config_fir_mod", "-fir", "0", "-fir_en", "1"]))).filter (fun w => w.1 == 0x50)
          = [] := by
  decide

/-- C10 (implicit enable of the frequency division).  In a run on a ready device
with accepted arguments, the register `0x60` is written once, with 1 if
`-freq_div` stands at a flag position of the arguments and with 0 otherwise, and
the register `0x68` is written once, with the reading of the last `-freq_div`
value, or with 0 when there is none; that value lies in 0..3. -/
theorem C10_freq_div (env : Env) (argv : List String) (hd : deviceReady env)
    (hacc : rejects argv.tail = false) :
    writtenTo 0x60 (main env argv) = [if "-freq_div" ∈ flagsOf argv.tail then 1 else 0]
      ∧ writtenTo 0x68 (main env argv) = [(lastValue "-freq_div" argv.tail).getD 0]
      ∧ 0 ≤ (lastValue "-freq_div" argv.tail).getD 0
      ∧ (lastValue "-freq_div" argv.tail).getD 0 ≤ 3 := by
  refine ⟨?_, ?_, ?_⟩
  · rw [writtenTo_main_of_accepts env argv hd hacc, writePlan_at_0x60]
    have hs : (settings initVars argv.tail).enable_freq_div
        = if (lastValue "-freq_div" argv.tail).isSome then 1 else 0 := rfl
    rw [hs]
    by_cases hm : "-freq_div" ∈ flagsOf argv.tail
    · rw [if_pos hm, if_pos ((lastValue_isSome_iff _ _ hacc).2 hm)]
    · rw [if_neg hm, if_neg (fun h => hm ((lastValue_isSome_iff _ _ hacc).1 h))]
  · rw [writtenTo_main_of_accepts env argv hd hacc, writePlan_at_0x68]
    rfl
  · cases hl : lastValue "-freq_div" argv.tail with
    | none => exact ⟨by decide, by decide⟩
    | some x =>
      have ha := allowed_of_lastValue "-freq_div" argv.tail x hacc hl
      simp [allowed] at ha
      exact ha

theorem C10_freq_div_witness :
    (deviceReady readyEnv
        ∧ rejects (List.tail ["config_fir_mod", "-freq_div", "1", "-avg", "0", "-freq_div", "3"])
            = false)
      ∧ writtenTo 0x60 (main readyEnv
          ["config_fir_mod", "-freq_div", "1", "-avg", "0", "-freq_div", "3"]) = [1]
      ∧ writtenTo 0x68 (main readyEnv
          ["config_fir_mod", "-freq_div", "1", "-avg", "0", "-freq_div", "3"]) = [3] :=
  ⟨⟨⟨rfl, rfl⟩, by decide⟩,
   (C10_freq_div readyEnv ["config_fir_mod", "-freq_div", "1", "-avg", "0", "-freq_div", "3"]
      ⟨rfl, rfl⟩ (by decide)).1,
   (C10_freq_div readyEnv ["config_fir_mod", "-freq_div", "1", "-avg", "0", "-freq_div", "3"]
      ⟨rfl, rfl⟩ (by decide)).2.1⟩

/-- C11, as the code has it.  In a run on a ready device with accepted arguments
the offsets written are, in order: `0x10`, `0x14` (pin directions), `0x18`, `0x1C`
(pin outputs), `0x30` (LEDs), `0x50` (FIR enable), six times `0x58` (coefficient
pushes), `0x54` (commit), `0x60` (frequency-division enable), `0x64`
(averaging-mode flag), `0x68` (frequency-division level), `0x70` (modulation
enable), `0x74` (carrier channel), `0x78` (modulation factor), `0x7C` (output
scale): the averaging flag is written between the division enable and the
level. -/
theorem C11_write_plan_order (env : Env) (argv : List String) (hd : deviceReady env)
    (hacc : rejects argv.tail = false) :
    (writes (main env argv)).map (fun w => w.1)
      = [0x10, 0x14, 0x18, 0x1C, 0x30, 0x50, 0x58, 0x58, 0x58, 0x58, 0x58, 0x58, 0x54,
         0x60, 0x64, 0x68, 0x70, 0x74, 0x78, 0x7C] := by
  rw [writes_main_of_accepts env argv hd hacc, writePlan_offsets]
  rfl

theorem C11_write_plan_order_witness :
    (deviceReady readyEnv
        ∧ rejects (List.tail ["config_fir_mod", "-avg", "0", "-freq_div", "2"]) = false)
      ∧ (writes (main readyEnv ["config_fir_mod", "-avg", "0", "-freq_div", "2"])).map
          (fun w => w.1)
        = [0x10, 0x14, 0x18, 0x1C, 0x30, 0x50, 0x58, 0x58, 0x58, 0x58, 0x58, 0x58, 0x54,
           0x60, 0x64, 0x68, 0x70, 0x74, 0x78, 0x7C] :=
  ⟨⟨⟨rfl, rfl⟩, by decide⟩,
   C11_write_plan_order readyEnv ["config_fir_mod", "-avg", "0", "-freq_div", "2"]
    ⟨rfl, rfl⟩ (by decide)⟩

/-- C11 fails as stated: the run `-avg 0 -freq_div 2` writes the averaging flag
(`0x64`, value 0) right after the division enable `0x60` and before the level
(`0x68`, value 2); its offsets are not the sequence of the claim, which has
`0x68` before `0x64`. -/
theorem C11_counterexample :
    writesAfter 0x54 (writes (main readyEnv ["config_fir_mod", "-avg", "0", "-freq_div", "2"]))
        = [(0x60, 1), (0x64, 0), (0x68, 2), (0x70, 0), (0x74, 0), (0x78, 8192), (0x7C, 4096)]
      ∧ (writes (main readyEnv ["config_fir_mod", "-avg", "0", "-freq_div", "2"])).map
          (fun w => w.1)
        ≠ [0x10, 0x14, 0x18, 0x1C, 0x30, 0x50, 0x58, 0x58, 0x58, 0x58, 0x58, 0x58, 0x54,
           0x60, 0x68, 0x64, 0x70, 0x74, 0x78, 0x7C] := by
  decide

/-- C12 (FIR protocol invariant).  In a run on a ready device with accepted
arguments there are exactly six writes to `0x58` and exactly one write to `0x54`,
its value is 1, and all six pushes come before it.  In every run whatever, either
no register is written at all or the same holds: no run commits after fewer than
six pushes. -/
theorem C12_fir_protocol (env : Env) (argv : List String) :
    (deviceReady env → rejects argv.tail = false →
        (writtenTo 0x58 (main env argv)).length = 6
          ∧ writtenTo 0x54 (main env argv) = [1]
          ∧ ((writesBefore 0x54 (writes (main env argv))).filter
              (fun w => w.1 == 0x58)).length = 6)
      ∧ (writes (main env argv) = []
          ∨ ((writtenTo 0x58 (main env argv)).length = 6
              ∧ writtenTo 0x54 (main env argv) = [1]
              ∧ ((writesBefore 0x54 (writes (main env argv))).filter
                  (fun w => w.1 == 0x58)).length = 6)) := by
  have key : deviceReady env → rejects argv.tail = false →
      (writtenTo 0x58 (main env argv)).length = 6
        ∧ writtenTo 0x54 (main env argv) = [1]
        ∧ ((writesBefore 0x54 (writes (main env argv))).filter
            (fun w => w.1 == 0x58)).length = 6 := by
    intro hd hacc
    have h := fir_shape_writePlan env.undefConv (settings initVars argv.tail)
    rw [fir_change_coef_settings] at h
    rw [writtenTo_main_of_accepts env argv hd hacc, writtenTo_main_of_accepts env argv hd hacc,
      writes_main_of_accepts env argv hd hacc]
    exact h
  refine ⟨key, ?_⟩
  rcases writes_main_cases env argv with h | ⟨hd, hacc⟩
  · exact Or.inl h
  · exact Or.inr (key hd hacc)

theorem C12_fir_protocol_witness :
    (writtenTo 0x58 (main readyEnv ["config_fir_mod", "-fir", "3", "-fir", "7"])).length = 6
      ∧ writtenTo 0x54 (main readyEnv ["config_fir_mod", "-fir", "3", "-fir", "7"]) = [1]
      ∧ ((writesBefore 0x54 (writes (main readyEnv
            ["config_fir_mod", "-fir", "3", "-fir", "7"]))).filter
          (fun w => w.1 == 0x58)).length = 6 :=
  (C12_fir_protocol readyEnv ["config_fir_mod", "-fir", "3", "-fir", "7"]).1 ⟨rfl, rfl⟩
    (by decide)

/-- C14, evaluated on the code.  The argument list `-A_carrier 0` passes the
validation and leaves the divisor 0: the run returns 0, the quotient
`8192.0f / 0.0f` is `+inf`, and what the run writes to `0x78` is what the platform
makes of the undefined conversion of `+inf` to `int` (12345 on the device
`oddConvEnv`, 0 on `readyEnv`). -/
theorem C14_zero_carrier_accepted :
    rejects ["-A_carrier", "0"] = false
      ∧ (settings initVars ["-A_carrier", "0"]).A_carrier = 0
      ∧ (main readyEnv ["config_fir_mod", "-A_carrier", "0"]).status = Status.exit 0
      ∧ F32.div (F32.ofInt 8192) (F32.ofInt 0) = F32.inf false
      ∧ writtenTo 0x78 (main oddConvEnv ["config_fir_mod", "-A_carrier", "0"]) = [12345]
      ∧ writtenTo 0x78 (main readyEnv ["config_fir_mod", "-A_carrier", "0"]) = [0] := by
  decide

/-- C15 (coefficients without a preset).  In a run on a ready device with accepted
arguments that have no `-fir` at a flag position, the writes to `0x58` and `0x54`
are six pushes of 0 followed by the commit 1: the run commits an all-zero
filter. -/
theorem C15_no_preset_pushes_zeros (env : Env) (argv : List String) (hd : deviceReady env)
    (hacc : rejects argv.tail = false) (hno : "-fir" ∉ flagsOf argv.tail) :
    firWrites (main env argv)
      = [(0x58, 0), (0x58, 0), (0x58, 0), (0x58, 0), (0x58, 0), (0x58, 0), (0x54, 1)] := by
  have hl := not_mem_flagsOf_lastValue "-fir" argv.tail hacc hno
  rw [firWrites, writes_main_of_accepts env argv hd hacc, firWrites_writePlan]
  have hs : (settings initVars argv.tail).fir_coef = [0, 0, 0, 0, 0, 0] := by
    show ((lastValue "-fir" argv.tail).map firRow).getD initVars.fir_coef = _
    rw [hl]
    rfl
  rw [hs, fir_change_coef_settings]
  rfl

theorem C15_no_preset_pushes_zeros_witness :
    (deviceReady readyEnv ∧ rejects (List.tail ["config_fir_mod", "-fir_en", "1"]) = false
        ∧ "-fir" ∉ flagsOf (List.tail ["config_fir_mod", "-fir_en", "1"]))
      ∧ firWrites (main readyEnv ["config_fir_mod", "-fir_en", "1"])
        = [(0x58, 0), (0x58, 0), (0x58, 0), (0x58, 0), (0x58, 0), (0x58, 0), (0x54, 1)] :=
  ⟨⟨⟨rfl, rfl⟩, by decide, by decide⟩,
   C15_no_preset_pushes_zeros readyEnv ["config_fir_mod", "-fir_en", "1"] ⟨rfl, rfl⟩
    (by decide) (by decide)⟩

/-- C16 (unity bound of the modulation factor).  In a run on a ready device with
accepted arguments that leave the amplitudes `A_c > 0` and `A_m`, the value
written to `0x78` is at most 8192 exactly when `A_m ≤ A_c`, which is exactly when
no warning line is printed; when `A_m > A_c` it is at least 8193. -/
theorem C16_unity_bound (env : Env) (argv : List String) (A_c A_m : Int)
    (hd : deviceReady env) (hacc : rejects argv.tail = false)
    (hc : (lastValue "-A_carrier" argv.tail).getD 8192 = A_c)
    (hm : (lastValue "-A_message" argv.tail).getD 8192 = A_m) (hpos : 0 < A_c) :
    ∃ v : Int, writtenTo 0x78 (main env argv) = [v]
      ∧ (v ≤ 8192 ↔ A_m ≤ A_c)
      ∧ (v ≤ 8192 ↔ warningLine ∉ (main env argv).events)
      ∧ (A_c < A_m → 8193 ≤ v) := by
  have rc := amplitude_range "-A_carrier" (Or.inl rfl) argv.tail hacc
  have rm := amplitude_range "-A_message" (Or.inr rfl) argv.tail hacc
  rw [hc] at rc
  rw [hm] at rm
  have h1 : (settings initVars argv.tail).A_carrier = A_c := hc
  have h2 : (settings initVars argv.tail).A_message = A_m := hm
  have hw := warning_mem_iff env argv hd hacc
  rw [h1, h2] at hw
  obtain ⟨u1, u2⟩ := mod_fact_unity env.undefConv A_m A_c rm.1 rm.2 hpos rc.2
  have hiff : mod_fact env.undefConv A_m A_c ≤ 8192 ↔ A_m ≤ A_c := by
    constructor
    · intro hv
      by_contra hn
      have := u2 (by omega)
      omega
    · exact u1
  refine ⟨mod_fact env.undefConv A_m A_c, ?_, hiff, ?_, u2⟩
  · rw [writtenTo_main_of_accepts env argv hd hacc, writePlan_at_0x78, h1, h2]
  · rw [hiff, hw]
    omega

theorem C16_unity_bound_witness :
    ∃ v : Int, writtenTo 0x78
        (main readyEnv ["config_fir_mod", "-A_carrier", "8191", "-A_message", "8192"]) = [v]
      ∧ (v ≤ 8192 ↔ (8192 : Int) ≤ 8191)
      ∧ (v ≤ 8192 ↔ warningLine ∉ (main readyEnv
          ["config_fir_mod", "-A_carrier", "8191", "-A_message", "8192"]).events)
      ∧ ((8191 : Int) < 8192 → 8193 ≤ v) :=
  C16_unity_bound readyEnv ["config_fir_mod", "-A_carrier", "8191", "-A_message", "8192"]
    8191 8192 ⟨rfl, rfl⟩ (by decide) (by decide) (by decide) (by decide)

/-- C17 (flag order independence).  Take an accepted argument list made of the
flag/value pairs `ps` in which no flag occurs twice, and any reordering `qs` of the
pairs.  The reordered list is accepted too, and on any device the run with it is
the same run: the same events, so the same exit status and the same register
writes, offsets and values, in the same order. -/
theorem C17_flag_order (env : Env) (prog : String) (ps qs : List (String × String))
    (hperm : ps.Perm qs) (hn : (ps.map (fun p => p.1)).Nodup)
    (hacc : rejects (argsOf ps) = false) :
    rejects (argsOf qs) = false
      ∧ (main env (prog :: argsOf qs)).status = (main env (prog :: argsOf ps)).status
      ∧ writes (main env (prog :: argsOf qs)) = writes (main env (prog :: argsOf ps))
      ∧ main env (prog :: argsOf qs) = main env (prog :: argsOf ps) := by
  have hacc' : rejects (argsOf qs) = false := by
    rw [rejects_argsOf] at hacc ⊢
    intro p hp
    exact hacc p (hperm.mem_iff.2 hp)
  have hmain : main env (prog :: argsOf qs) = main env (prog :: argsOf ps) := by
    unfold main
    rw [List.tail_cons, List.tail_cons, parseArgs_accepts _ _ hacc, parseArgs_accepts _ _ hacc',
      settings_argsOf_perm ps qs hperm hn]
  exact ⟨hacc', by rw [hmain], by rw [hmain], hmain⟩

theorem C17_flag_order_witness :
    (rejects (argsOf [("-fir", "2"), ("-mod", "1"), ("-A_message", "100")]) = false
        ∧ rejects (argsOf [("-A_message", "100"), ("-fir", "2"), ("-mod", "1")]) = false)
      ∧ (main readyEnv ("config_fir_mod"
            :: argsOf [("-A_message", "100"), ("-fir", "2"), ("-mod", "1")])).status
          = (main readyEnv ("config_fir_mod"
            :: argsOf [("-fir", "2"), ("-mod", "1"), ("-A_message", "100")])).status
      ∧ writes (main readyEnv ("config_fir_mod"
            :: argsOf [("-A_message", "100"), ("-fir", "2"), ("-mod", "1")]))
          = writes (main readyEnv ("config_fir_mod"
            :: argsOf [("-fir", "2"), ("-mod", "1"), ("-A_message", "100")])) :=
  have h := C17_flag_order readyEnv "config_fir_mod"
    [("-fir", "2"), ("-mod", "1"), ("-A_message", "100")]
    [("-A_message", "100"), ("-fir", "2"), ("-mod", "1")]
    (by decide) (by decide) (by decide)
  ⟨⟨by decide, h.1⟩, h.2.1, h.2.2.1⟩

end ConfigFirMod
